import Mathlib

/-!
SOLL, function-body code generator and driver: a verification development.

Shallow embedding of
* `lib/CodeGen/CodeGenFunction.h` (the local-declaration map, the
  break/continue stack, `createBasicBlock`),
* `lib/Frontend/CompilerInvocation.cpp` (`ParseCommandLineOptions`),
* `tools/soll/main.cpp` (`main`).

Pointers are modelled as natural numbers (addresses / handles), a nullable
pointer as an `Option`.  A failed `assert` is modelled as a fatal error
(`Except.error` carrying the assertion message).
-/

namespace soll.CodeGen

/-! ## The local-declaration map -/

/-- A `const VarDecl *`: the identity of one declaration node of the AST. -/
abbrev VarDeclPtr := Nat

/-- An `llvm::Value *`: the storage handle of a local variable. -/
abbrev ValuePtr := Nat

/-- The type `DeclMapTy = llvm::DenseMap<const VarDecl *, llvm::Value *>`,
as the sequence of its entries in insertion order. -/
abbrev DeclMapTy := List (VarDeclPtr × ValuePtr)

/-- The lookup `DenseMap::find`: the value of the entry with key `k`, or
`none` for the `end()` iterator. -/
def DenseMap.find (M : DeclMapTy) (k : VarDeclPtr) : Option ValuePtr :=
  (List.find? (fun e => e.1 == k) M).map (fun e => e.2)

/-- The membership test `DenseMap::count`: 1 when the key is present, else 0. -/
def DenseMap.count (M : DeclMapTy) (k : VarDeclPtr) : Nat :=
  if (DenseMap.find M k).isSome then 1 else 0

/-- The insertion `DenseMap::insert`: adds the entry when the key is absent
and leaves the map as it is (no overwrite) when the key is present. -/
def DenseMap.insert (M : DeclMapTy) (k : VarDeclPtr) (v : ValuePtr) : DeclMapTy :=
  if DenseMap.count M k = 0 then M ++ [(k, v)] else M

/-- The entry count `DenseMap::size`. -/
def DenseMap.size (M : DeclMapTy) : Nat := M.length

/-- The method `CodeGenFunction::setAddrOfLocalVar`, on the `LocalDeclMap`
field: the assertion, then the insertion. -/
def setAddrOfLocalVar (LocalDeclMap : DeclMapTy) (VD : VarDeclPtr) (Addr : ValuePtr) :
    Except String DeclMapTy :=
  if DenseMap.count LocalDeclMap VD != 0 then
    .error "Decl already exists in LocalDeclMap!"
  else
    .ok (DenseMap.insert LocalDeclMap VD Addr)

/-- The method `CodeGenFunction::getAddrOfLocalVar`, on the `LocalDeclMap`
field: the lookup, the assertion, then `it->second`.  The map after the call
is returned next to the result. -/
def getAddrOfLocalVar (LocalDeclMap : DeclMapTy) (VD : VarDeclPtr) :
    Except String (ValuePtr × DeclMapTy) :=
  match DenseMap.find LocalDeclMap VD with
  | none => .error "Invalid argument to getAddrOfLocalVar(), no decl!"
  | some second => .ok (second, LocalDeclMap)

/-- A declaration `v` is bound in `M` when `M` has an entry with key `v`. -/
def Bound (M : DeclMapTy) (v : VarDeclPtr) : Prop := ∃ a, (v, a) ∈ M

/-- One call on the local-declaration map. -/
inductive MapOp where
  | declare (v : VarDeclPtr) (a : ValuePtr)
  | resolve (v : VarDeclPtr)
  deriving DecidableEq, Repr

/-- The map after one call; a fatal error stops the compilation. -/
def MapOp.step (M : DeclMapTy) : MapOp → Except String DeclMapTy
  | .declare v a => setAddrOfLocalVar M v a
  | .resolve v => (getAddrOfLocalVar M v).map (fun r => r.2)

/-- The map after a sequence of calls, each of which has to succeed. -/
def MapOp.run (M : DeclMapTy) : List MapOp → Except String DeclMapTy
  | [] => .ok M
  | op :: ops =>
    match MapOp.step M op with
    | .error e => .error e
    | .ok M' => MapOp.run M' ops

/-- The number of `declare` calls in a sequence. -/
def MapOp.declares : List MapOp → Nat
  | [] => 0
  | .declare _ _ :: ops => MapOp.declares ops + 1
  | .resolve _ :: ops => MapOp.declares ops

/-! ## The break/continue stack -/

/-- An `llvm::BasicBlock *`: the handle of a basic block. -/
abbrev BlockPtr := Nat

/-- An `llvm::Function *`: the handle of a function. -/
abbrev FuncPtr := Nat

/-- The struct `CodeGenFunction::BreakContinue`. -/
structure BreakContinue where
  BreakBlock : BlockPtr
  ContinueBlock : BlockPtr
  deriving DecidableEq, Repr

/-- The constructor `BreakContinue(Break, Continue)` with its member
initialisers `BreakBlock(Break), ContinueBlock(Continue)`. -/
def BreakContinue.ctor (Break Continue : BlockPtr) : BreakContinue :=
  { BreakBlock := Break, ContinueBlock := Continue }

/-- The type of the field `BreakContinueStack`,
`llvm::SmallVector<BreakContinue, 8>`: its elements from front to back. -/
abbrev BreakContinueStackTy := List BreakContinue

/-- The call `SmallVector::push_back`: the element is added at the back. -/
def SmallVector.push_back (S : BreakContinueStackTy) (x : BreakContinue) :
    BreakContinueStackTy :=
  S ++ [x]

/-- The call `SmallVector::pop_back`: the back element is removed; not
defined on an empty vector. -/
def SmallVector.pop_back (S : BreakContinueStackTy) : Option BreakContinueStackTy :=
  if S.isEmpty then none else some S.dropLast

/-- The call `SmallVector::back`: the back element; not defined on an empty
vector. -/
def SmallVector.back (S : BreakContinueStackTy) : Option BreakContinue :=
  S.getLast?

/-- One operation of the control-transfer stack: entering a loop with its
break and continue targets, or leaving the innermost loop. -/
inductive LoopOp where
  | enter (Break Continue : BlockPtr)
  | exit
  deriving DecidableEq, Repr

/-- Modelled from the spec: the stack after one operation (section 4.3):
`enterLoop(breakTarget, continueTarget)` pushes, as
`BreakContinueStack.push_back(BreakContinue(b, c))`, and `exitLoop()` pops the
top entry, as `BreakContinueStack.pop_back()`; the method bodies that do so
are not at hand. -/
def LoopOp.step (S : BreakContinueStackTy) : LoopOp → Option BreakContinueStackTy
  | .enter b c => some (SmallVector.push_back S (BreakContinue.ctor b c))
  | .exit => SmallVector.pop_back S

/-- The stack after a sequence of operations. -/
def LoopOp.run (S : BreakContinueStackTy) : List LoopOp → Option BreakContinueStackTy
  | [] => some S
  | op :: ops =>
    match LoopOp.step S op with
    | none => none
    | some S' => LoopOp.run S' ops

/-- The nesting depth after a sequence of operations that starts at depth
`d`; `none` when an `exit` has no `enter` to match. -/
def LoopOp.depth (d : Nat) : List LoopOp → Option Nat
  | [] => some d
  | .enter _ _ :: ops => LoopOp.depth (d + 1) ops
  | .exit :: ops =>
    match d with
    | 0 => none
    | d' + 1 => LoopOp.depth d' ops

/-- A sequence of operations is properly nested when every `exit` matches an
earlier `enter` and every `enter` is matched. -/
def LoopOp.nested (ops : List LoopOp) : Bool :=
  LoopOp.depth 0 ops == some 0

/-! ## Basic blocks and the IR builder -/

/-- A `const Expr *`: the identity of one expression node of the AST. -/
abbrev ExprPtr := Nat

/-- The instructions of a block, as far as the lowering of control flow tells
them apart. -/
inductive Inst where
  /-- The straight-line instructions that compute an expression. -/
  | eval (E : ExprPtr)
  /-- The store of the value of an expression into the return-value slot. -/
  | storeReturn (E : ExprPtr)
  /-- An unconditional branch. -/
  | br (Dest : BlockPtr)
  /-- A conditional branch on the value of an expression. -/
  | condBr (Cond : ExprPtr) (IfTrue IfFalse : BlockPtr)
  /-- The abort that reverts with a reason (the message, when there is one). -/
  | revert (Message : Option ExprPtr)
  /-- The abort that signals a broken invariant. -/
  | invalid
  /-- The return of the function, in its exit block. -/
  | ret
  deriving DecidableEq, Repr

/-- The kinds of terminators. -/
inductive TerminatorKind where
  | branch
  | conditionalBranch
  | revertWithReason
  | invariantFailure
  | functionReturn
  deriving DecidableEq, Repr

/-- The terminator kind of an instruction, `none` for an instruction that is
not a terminator. -/
def Inst.terminatorKind : Inst → Option TerminatorKind
  | .eval _ => none
  | .storeReturn _ => none
  | .br _ => some .branch
  | .condBr _ _ _ => some .conditionalBranch
  | .revert _ => some .revertWithReason
  | .invalid => some .invariantFailure
  | .ret => some .functionReturn

/-- An `llvm::BasicBlock`: the name it was created with (a suffix that LLVM
may add to keep the names of a function apart is not modelled), the function
it is attached to (`none` for a null parent) and its instructions. -/
structure BasicBlock where
  Name : String
  Parent : Option FuncPtr
  Insts : List Inst
  deriving DecidableEq, Repr

/-- The IR objects the code generator works on and the builder's insertion
block: `Blocks` holds every block created so far (a block's handle is its
position), `Functions` holds, for each function handle, the handles of the
blocks in the function's block list, and `InsertBlock` is the result of
`Builder.GetInsertBlock()`, `none` for a null pointer. -/
structure IRState where
  Blocks : List BasicBlock
  Functions : List (List BlockPtr)
  InsertBlock : Option BlockPtr
  deriving DecidableEq, Repr

/-- The call `llvm::BasicBlock::Create(Context, Name, Parent)`: a new block
without instructions, which is put at the end of the block list of `Parent`
when `Parent` is not null.  The handle of the new block is returned. -/
def BasicBlock.Create (Name : String) (Parent : Option FuncPtr) (st : IRState) :
    BlockPtr × IRState :=
  let BB := st.Blocks.length
  let Functions :=
    match Parent with
    | none => st.Functions
    | some F => st.Functions.modify (fun L => L ++ [BB]) F
  (BB, { st with
    Blocks := st.Blocks ++ [{ Name := Name, Parent := Parent, Insts := [] }],
    Functions := Functions })

/-- The call `getParent()` on a block handle: `none` when the handle is not
the handle of a block, else the parent of the block (which may be null). -/
def IRState.getParent (st : IRState) (BB : BlockPtr) : Option (Option FuncPtr) :=
  st.Blocks[BB]?.map (fun B => B.Parent)

/-- The method `CodeGenFunction::createBasicBlock`: a null `Parent` is
replaced by the parent of the builder's insertion block, then the block is
created.  The result is `none` when a null or dangling insertion block is
dereferenced. -/
def createBasicBlock (Name : String) (Parent : Option FuncPtr) (st : IRState) :
    Option (BlockPtr × IRState) :=
  match Parent with
  | none =>
    match st.InsertBlock with
    | none => none
    | some IB =>
      match st.getParent IB with
      | none => none
      | some P => some (BasicBlock.Create Name P st)
  | some P => some (BasicBlock.Create Name (some P) st)

/-- The call `Builder.Insert(I)` with the insertion point at the end of the
insertion block: `I` becomes the last instruction of that block.  The result
is `none` when the insertion block is null or dangling. -/
def IRState.Insert (I : Inst) (st : IRState) : Option IRState :=
  match st.InsertBlock with
  | none => none
  | some IB =>
    match st.Blocks[IB]? with
    | none => none
    | some B => some { st with Blocks := st.Blocks.set IB { B with Insts := B.Insts ++ [I] } }

/-- The call `Builder.SetInsertPoint(BB)`: later instructions go to the end
of `BB`. -/
def IRState.SetInsertPoint (BB : BlockPtr) (st : IRState) : IRState :=
  { st with InsertBlock := some BB }

/-- Whether the insertion block ends in a terminator
(`Builder.GetInsertBlock()->getTerminator() != nullptr`). -/
def IRState.terminated (st : IRState) : Bool :=
  match st.InsertBlock with
  | none => false
  | some IB =>
    match st.Blocks[IB]? with
    | none => false
    | some B =>
      match B.Insts.getLast? with
      | none => false
      | some I => I.terminatorKind.isSome

/-! ## Statement lowering

The `emit...` methods are declared in `CodeGenFunction.h` and defined
elsewhere in the repository; they are modelled from the specification
(sections 4.3, 4.4 and 4.6), over the state of a `CodeGenFunction` and with
the `createBasicBlock` of the header. -/

/-- The state of a `CodeGenFunction`: the data members of the class, with the
IR objects that `CGM` and `Builder` refer to as `IR`. -/
structure CodeGenFunction where
  BreakContinueStack : BreakContinueStackTy
  IR : IRState
  ReturnBlock : BlockPtr
  ReturnValue : Option ValuePtr
  LocalDeclMap : DeclMapTy
  deriving DecidableEq, Repr

/-- Modelled from the spec: the expressions of the AST (`Expr`, whose
declaration is not at hand), as far as section 4.5 dispatches on them: a call of one of the
built-in identifiers `require`, `assert`, `revert`, or any other expression. -/
inductive Expr where
  | callRequire (Cond : ExprPtr) (Message : Option ExprPtr)
  | callAssert (Cond : ExprPtr)
  | callRevert (Message : Option ExprPtr)
  | other (E : ExprPtr)
  deriving DecidableEq, Repr

/-- Modelled from the spec: the statements of the AST (`Stmt`, whose
declaration is not at hand), for the statement kinds of section 4.4 that shape the control flow. -/
inductive Stmt where
  | exprStmt (E : Expr)
  | block (Body : List Stmt)
  | ifStmt (Cond : ExprPtr) (Then : Stmt) (Else : Option Stmt)
  | whileStmt (Cond : ExprPtr) (Body : Stmt)
  | forStmt (Init : Stmt) (Cond : ExprPtr) (Loop : ExprPtr) (Body : Stmt)
  | continueStmt
  | breakStmt
  | returnStmt (E : Option ExprPtr)

/-- The call `createBasicBlock(Name)` of a `CodeGenFunction`, with the
default null parent. -/
def CodeGenFunction.createBlock (Name : String) (CGF : CodeGenFunction) :
    Option (BlockPtr × CodeGenFunction) :=
  match createBasicBlock Name none CGF.IR with
  | none => none
  | some (BB, IR) => some (BB, { CGF with IR := IR })

/-- The call `Builder.Insert(I)` of a `CodeGenFunction`. -/
def CodeGenFunction.insert (I : Inst) (CGF : CodeGenFunction) : Option CodeGenFunction :=
  match CGF.IR.Insert I with
  | none => none
  | some IR => some { CGF with IR := IR }

/-- The call `Builder.SetInsertPoint(BB)` of a `CodeGenFunction`. -/
def CodeGenFunction.setInsertPoint (BB : BlockPtr) (CGF : CodeGenFunction) : CodeGenFunction :=
  { CGF with IR := CGF.IR.SetInsertPoint BB }

/-- Modelled from the spec: the branch that ends an arm or a loop body
(section 4.4: an unconditional branch "unless it already terminated"). -/
def CodeGenFunction.emitBranch (Target : BlockPtr) (CGF : CodeGenFunction) :
    Option CodeGenFunction :=
  if CGF.IR.terminated then some CGF else CGF.insert (.br Target)

/-- Modelled from the spec: `enterLoop(breakTarget, continueTarget)` pushes
(section 4.3; the method bodies that do so are not at hand). -/
def CodeGenFunction.enterLoop (Break Continue : BlockPtr) (CGF : CodeGenFunction) :
    CodeGenFunction :=
  { CGF with BreakContinueStack :=
      SmallVector.push_back CGF.BreakContinueStack (BreakContinue.ctor Break Continue) }

/-- Modelled from the spec: `exitLoop()` pops the top entry (section 4.3; the
method bodies that do so are not at hand). -/
def CodeGenFunction.exitLoop (CGF : CodeGenFunction) : Option CodeGenFunction :=
  match SmallVector.pop_back CGF.BreakContinueStack with
  | none => none
  | some S => some { CGF with BreakContinueStack := S }

/-- Modelled from the spec: `currentBreakTarget()` returns the top entry's
break target; fatal on an empty stack (section 4.3). -/
def CodeGenFunction.currentBreakTarget (CGF : CodeGenFunction) : Option BlockPtr :=
  (SmallVector.back CGF.BreakContinueStack).map (fun T => T.BreakBlock)

/-- Modelled from the spec: `currentContinueTarget()` returns the top entry's
continue target; fatal on an empty stack (section 4.3). -/
def CodeGenFunction.currentContinueTarget (CGF : CodeGenFunction) : Option BlockPtr :=
  (SmallVector.back CGF.BreakContinueStack).map (fun T => T.ContinueBlock)

/-- Modelled from the spec: after a terminator that control never passes
(break, continue, return, revert), the rest of the enclosing block is lowered
into a fresh block that nothing branches to (section 4.4 and the policy
recommended in section 9). -/
def CodeGenFunction.startUnreachable (CGF : CodeGenFunction) : Option CodeGenFunction :=
  match CGF.createBlock "unreachable" with
  | none => none
  | some (BB, CGF) => some (CGF.setInsertPoint BB)

/-- Modelled from the spec: `emitCallRequire` (declared in the header, its body is not at hand), section
4.6: a conditional branch on the condition whose false branch leads to the
revert-with-reason path, carrying the message if there is one, and whose
true branch continues. -/
def emitCallRequire (Cond : ExprPtr) (Message : Option ExprPtr) (CGF : CodeGenFunction) :
    Option CodeGenFunction :=
  match CGF.createBlock "require.continue" with
  | none => none
  | some (Continue, CGF) =>
    match CGF.createBlock "require.revert" with
    | none => none
    | some (Revert, CGF) =>
      match CGF.insert (.condBr Cond Continue Revert) with
      | none => none
      | some CGF =>
        match (CGF.setInsertPoint Revert).insert (.revert Message) with
        | none => none
        | some CGF => some (CGF.setInsertPoint Continue)

/-- Modelled from the spec: `emitCallAssert` (declared in the header, its body is not at hand), section
4.6: a conditional branch on the condition whose false branch leads to the
invariant-failure terminator, without a reason, and whose true branch
continues. -/
def emitCallAssert (Cond : ExprPtr) (CGF : CodeGenFunction) : Option CodeGenFunction :=
  match CGF.createBlock "assert.continue" with
  | none => none
  | some (Continue, CGF) =>
    match CGF.createBlock "assert.invalid" with
    | none => none
    | some (Invalid, CGF) =>
      match CGF.insert (.condBr Cond Continue Invalid) with
      | none => none
      | some CGF =>
        match (CGF.setInsertPoint Invalid).insert .invalid with
        | none => none
        | some CGF => some (CGF.setInsertPoint Continue)

/-- Modelled from the spec: `emitCallRevert` (declared in the header, its body is not at hand), section
4.6: the revert-with-reason path is taken unconditionally and there is no
continuation. -/
def emitCallRevert (Message : Option ExprPtr) (CGF : CodeGenFunction) : Option CodeGenFunction :=
  match CGF.insert (.revert Message) with
  | none => none
  | some CGF => CGF.startUnreachable

/-- Modelled from the spec: `emitExpr` for an expression statement (declared
in the header, its body is not at hand), section 4.5: the three built-in calls go to the lowering of the
abort primitives, any other expression is lowered to the instructions that
compute it. -/
def emitExpr (E : Expr) (CGF : CodeGenFunction) : Option CodeGenFunction :=
  match E with
  | .callRequire Cond Message => emitCallRequire Cond Message CGF
  | .callAssert Cond => emitCallAssert Cond CGF
  | .callRevert Message => emitCallRevert Message CGF
  | .other E => CGF.insert (.eval E)

/-- Modelled from the spec: `emitBreakStmt` (declared in the header, its body is not at hand), section
4.4: an unconditional branch to the current break target. -/
def emitBreakStmt (CGF : CodeGenFunction) : Option CodeGenFunction :=
  match CGF.currentBreakTarget with
  | none => none
  | some Target =>
    match CGF.insert (.br Target) with
    | none => none
    | some CGF => CGF.startUnreachable

/-- Modelled from the spec: `emitContinueStmt` (declared in the header, its body is not at hand), section
4.4: an unconditional branch to the current continue target. -/
def emitContinueStmt (CGF : CodeGenFunction) : Option CodeGenFunction :=
  match CGF.currentContinueTarget with
  | none => none
  | some Target =>
    match CGF.insert (.br Target) with
    | none => none
    | some CGF => CGF.startUnreachable

/-- Modelled from the spec: `emitReturnStmt` (declared in the header, its body is not at hand), section
4.4: the value, if any, is stored into the return-value slot, then an
unconditional branch to the single exit block. -/
def emitReturnStmt (E : Option ExprPtr) (CGF : CodeGenFunction) : Option CodeGenFunction :=
  let stored :=
    match E with
    | none => some CGF
    | some E => CGF.insert (.storeReturn E)
  match stored with
  | none => none
  | some CGF =>
    match CGF.insert (.br CGF.ReturnBlock) with
    | none => none
    | some CGF => CGF.startUnreachable

/-- The blocks of a lowered `if`: the then block, the else block (the merge
block when there is no else clause) and the merge block. -/
structure IfBlocks where
  Then : BlockPtr
  Else : BlockPtr
  Merge : BlockPtr
  deriving DecidableEq, Repr

/-- The blocks of a lowered loop: the condition block, the body block, the
block the continue target names and the exit block. -/
structure LoopBlocks where
  Cond : BlockPtr
  Body : BlockPtr
  Continue : BlockPtr
  Exit : BlockPtr
  deriving DecidableEq, Repr

/-- Modelled from the spec: the start of `emitIfStmt`, section 4.4: the
condition is lowered into a branch to a then block and an else block, which is
the merge block when there is no else clause; the then arm comes next. -/
def emitIfStmt.head (Cond : ExprPtr) (hasElse : Bool) (CGF : CodeGenFunction) :
    Option (IfBlocks × CodeGenFunction) :=
  match CGF.createBlock "if.then" with
  | none => none
  | some (Then, CGF) =>
    match CGF.createBlock "if.end" with
    | none => none
    | some (Merge, CGF) =>
      let elseBlock :=
        if hasElse then CGF.createBlock "if.else" else some (Merge, CGF)
      match elseBlock with
      | none => none
      | some (Else, CGF) =>
        match CGF.insert (.condBr Cond Then Else) with
        | none => none
        | some CGF => some ({ Then := Then, Else := Else, Merge := Merge }, CGF.setInsertPoint Then)

/-- Modelled from the spec: the end of an arm of `emitIfStmt`, section 4.4: a
branch to the merge block unless the arm already terminated; the next block
to be filled is `Next`. -/
def emitIfStmt.endArm (B : IfBlocks) (Next : BlockPtr) (CGF : CodeGenFunction) :
    Option CodeGenFunction :=
  match CGF.emitBranch B.Merge with
  | none => none
  | some CGF => some (CGF.setInsertPoint Next)

/-- Modelled from the spec: the start of `emitWhileStmt`, section 4.4: a
condition block, a body block and an exit block; a branch from the point of
entry to the condition block, which branches on the condition to the body or
the exit; `enterLoop(exit, condition)` for the body. -/
def emitWhileStmt.head (Cond : ExprPtr) (CGF : CodeGenFunction) :
    Option (LoopBlocks × CodeGenFunction) :=
  match CGF.createBlock "while.cond" with
  | none => none
  | some (CondBB, CGF) =>
    match CGF.createBlock "while.body" with
    | none => none
    | some (BodyBB, CGF) =>
      match CGF.createBlock "while.end" with
      | none => none
      | some (ExitBB, CGF) =>
        match CGF.insert (.br CondBB) with
        | none => none
        | some CGF =>
          match (CGF.setInsertPoint CondBB).insert (.condBr Cond BodyBB ExitBB) with
          | none => none
          | some CGF =>
            some ({ Cond := CondBB, Body := BodyBB, Continue := CondBB, Exit := ExitBB },
              (CGF.enterLoop ExitBB CondBB).setInsertPoint BodyBB)

/-- Modelled from the spec: the end of `emitWhileStmt`, section 4.4: the body
branches back to the condition block unless it already terminated, the loop
is left, and the lowering continues in the exit block. -/
def emitWhileStmt.latch (B : LoopBlocks) (CGF : CodeGenFunction) : Option CodeGenFunction :=
  match CGF.emitBranch B.Cond with
  | none => none
  | some CGF =>
    match CGF.exitLoop with
    | none => none
    | some CGF => some (CGF.setInsertPoint B.Exit)

/-- Modelled from the spec: the blocks of `emitForStmt`, section 4.4: as for
while, and an increment block for the post-body expression. -/
def emitForStmt.blocks (CGF : CodeGenFunction) : Option (LoopBlocks × CodeGenFunction) :=
  match CGF.createBlock "for.cond" with
  | none => none
  | some (CondBB, CGF) =>
    match CGF.createBlock "for.body" with
    | none => none
    | some (BodyBB, CGF) =>
      match CGF.createBlock "for.inc" with
      | none => none
      | some (IncBB, CGF) =>
        match CGF.createBlock "for.end" with
        | none => none
        | some (ExitBB, CGF) =>
          some ({ Cond := CondBB, Body := BodyBB, Continue := IncBB, Exit := ExitBB }, CGF)

/-- Modelled from the spec: the part of `emitForStmt` between the initializer
and the body, section 4.4: the branch to the condition block, the branch on
the condition to the body or the exit, and `enterLoop` with the exit block as
break target and the increment block as continue target. -/
def emitForStmt.head (Cond : ExprPtr) (B : LoopBlocks) (CGF : CodeGenFunction) :
    Option CodeGenFunction :=
  match CGF.insert (.br B.Cond) with
  | none => none
  | some CGF =>
    match (CGF.setInsertPoint B.Cond).insert (.condBr Cond B.Body B.Exit) with
    | none => none
    | some CGF => some ((CGF.enterLoop B.Exit B.Continue).setInsertPoint B.Body)

/-- Modelled from the spec: the end of `emitForStmt`, section 4.4: the body
branches to the increment block unless it already terminated, the loop is
left, the post-body expression is lowered into the increment block, which
branches back to the condition block, and the lowering continues in the exit
block. -/
def emitForStmt.latch (Loop : ExprPtr) (B : LoopBlocks) (CGF : CodeGenFunction) :
    Option CodeGenFunction :=
  match CGF.emitBranch B.Continue with
  | none => none
  | some CGF =>
    match CGF.exitLoop with
    | none => none
    | some CGF =>
      match (CGF.setInsertPoint B.Continue).insert (.eval Loop) with
      | none => none
      | some CGF =>
        match CGF.insert (.br B.Cond) with
        | none => none
        | some CGF => some (CGF.setInsertPoint B.Exit)

mutual
/-- Modelled from the spec: `emitStmt` (declared in the header, its body is not at hand), section 4.4:
the dispatch on the statement kind, with `emitIfStmt`, `emitWhileStmt` and
`emitForStmt` around the lowering of their sub-statements. -/
def emitStmt : Stmt → CodeGenFunction → Option CodeGenFunction
  | .exprStmt E, CGF => emitExpr E CGF
  | .block Body, CGF => emitBlock Body CGF
  | .ifStmt Cond Then Else, CGF =>
    match emitIfStmt.head Cond Else.isSome CGF with
    | none => none
    | some (B, CGF) =>
      match emitStmt Then CGF with
      | none => none
      | some CGF =>
        match emitIfStmt.endArm B B.Else CGF with
        | none => none
        | some CGF => emitElse Else B CGF
  | .whileStmt Cond Body, CGF =>
    match emitWhileStmt.head Cond CGF with
    | none => none
    | some (B, CGF) =>
      match emitStmt Body CGF with
      | none => none
      | some CGF => emitWhileStmt.latch B CGF
  | .forStmt Init Cond Loop Body, CGF =>
    match emitForStmt.blocks CGF with
    | none => none
    | some (B, CGF) =>
      match emitStmt Init CGF with
      | none => none
      | some CGF =>
        match emitForStmt.head Cond B CGF with
        | none => none
        | some CGF =>
          match emitStmt Body CGF with
          | none => none
          | some CGF => emitForStmt.latch Loop B CGF
  | .continueStmt, CGF => emitContinueStmt CGF
  | .breakStmt, CGF => emitBreakStmt CGF
  | .returnStmt E, CGF => emitReturnStmt E CGF
/-- Modelled from the spec: `emitBlock` (declared in the header, its body is not at hand), section 4.4:
the statements of a block are lowered in sequence. -/
def emitBlock : List Stmt → CodeGenFunction → Option CodeGenFunction
  | [], CGF => some CGF
  | S :: Rest, CGF =>
    match emitStmt S CGF with
    | none => none
    | some CGF => emitBlock Rest CGF
/-- Modelled from the spec: the else clause of `emitIfStmt`, section 4.4: when
there is one, it is lowered into the else block, which then branches to the
merge block unless it already terminated. -/
def emitElse : Option Stmt → IfBlocks → CodeGenFunction → Option CodeGenFunction
  | none, _, CGF => some CGF
  | some ElseStmt, B, CGF =>
    match emitStmt ElseStmt CGF with
    | none => none
    | some CGF => emitIfStmt.endArm B B.Merge CGF
end

mutual
/-- Whether every `break` and `continue` of a statement is inside a loop,
`inLoop` telling whether the statement itself is. -/
def Stmt.scoped (inLoop : Bool) : Stmt → Bool
  | .exprStmt _ => true
  | .block Body => Stmt.scopedList inLoop Body
  | .ifStmt _ Then Else => Stmt.scoped inLoop Then && Stmt.scopedElse inLoop Else
  | .whileStmt _ Body => Stmt.scoped true Body
  | .forStmt Init _ _ Body => Stmt.scoped inLoop Init && Stmt.scoped true Body
  | .continueStmt => inLoop
  | .breakStmt => inLoop
  | .returnStmt _ => true
/-- Whether every `break` and `continue` of a list of statements is inside a
loop. -/
def Stmt.scopedList (inLoop : Bool) : List Stmt → Bool
  | [] => true
  | S :: Rest => Stmt.scoped inLoop S && Stmt.scopedList inLoop Rest
/-- Whether every `break` and `continue` of an else clause, if there is one,
is inside a loop. -/
def Stmt.scopedElse (inLoop : Bool) : Option Stmt → Bool
  | none => true
  | some ElseStmt => Stmt.scoped inLoop ElseStmt
end

/-- An example state: a function 0 with an empty entry block 0, in which the
builder inserts, and an exit block 1; no loop is open. -/
def exampleFunction : CodeGenFunction :=
  { BreakContinueStack := [],
    IR := { Blocks := [{ Name := "entry", Parent := some 0, Insts := [] },
                       { Name := "return", Parent := some 0, Insts := [.ret] }],
            Functions := [[0, 1]],
            InsertBlock := some 0 },
    ReturnBlock := 1,
    ReturnValue := none,
    LocalDeclMap := [] }

/-- An example loop, `for (e100; e101; e102) { if (e103) continue; e104; }`. -/
def exampleFor : Stmt :=
  .forStmt (.exprStmt (.other 100)) 101 102
    (.block [.ifStmt 103 .continueStmt none, .exprStmt (.other 104)])

/-- The frame of a piece of lowering that starts in state `a` with insertion
block `c`, seen from a state with `n` blocks: the state `x` it reaches has all
the blocks of `a`, the blocks below `n` other than `c` are as in `a`, and the
insertion block of `x` is a block of `x` that is `c` or not below `n`. -/
def IRState.Frame (n : Nat) (c : Nat) (a x : IRState) : Prop :=
  a.Blocks.length ≤ x.Blocks.length ∧
  (∀ i, i < n → i ≠ c → x.Blocks[i]? = a.Blocks[i]?) ∧
  ∃ k : Nat, x.InsertBlock = some k ∧ k < x.Blocks.length ∧ (k = c ∨ n ≤ k)

/-- The state `x` is reached from `a` within the frame `n`, `c`, with the
break/continue stack `S`, and with the other members of `a`. -/
def CodeGenFunction.Tracks (n : Nat) (c : Nat) (a : CodeGenFunction)
    (S : BreakContinueStackTy) (x : CodeGenFunction) : Prop :=
  x.BreakContinueStack = S ∧ x.ReturnBlock = a.ReturnBlock ∧ x.ReturnValue = a.ReturnValue ∧
  x.LocalDeclMap = a.LocalDeclMap ∧ n ≤ a.IR.Blocks.length ∧ IRState.Frame n c a.IR x.IR

end soll.CodeGen

namespace soll

/-! ## The compiler invocation and the driver -/

/-- The enumeration `InputKind`, with the values the option `-lang` takes. -/
inductive InputKind where
  | Sol
  | Yul
  deriving DecidableEq, Repr

/-- The enumeration `DeployPlatformKind`, with the values the option
`-deploy` takes. -/
inductive DeployPlatformKind where
  | Normal
  | Chain
  deriving DecidableEq, Repr

/-- The enumeration `ActionKind`, with the values the option `-action`
takes. -/
inductive ActionKind where
  | ASTDump
  | EmitAssembly
  | EmitBC
  | EmitLLVM
  | EmitLLVMOnly
  | EmitCodeGenOnly
  | EmitObj
  | EmitWasm
  | EmitFuncSig
  | EmitABI
  | InitOnly
  | ParseSyntaxOnly
  deriving DecidableEq, Repr

/-- The enumeration `OptLevel`, with the values of the optimization-level
option. -/
inductive OptLevel where
  | O0
  | O1
  | O2
  | O3
  | Os
  | Oz
  deriving DecidableEq, Repr

/-- The enumeration `TargetKind`, with the values the option `-target`
takes. -/
inductive TargetKind where
  | EWASM
  | EVM
  deriving DecidableEq, Repr

/-- The values of the static option objects of `CompilerInvocation.cpp` once
the option parser has run. -/
structure Options where
  InputFilenames : List String
  Language : InputKind
  DeployPlatform : DeployPlatformKind
  Action : ActionKind
  OptimizationLevel : OptLevel
  Runtime : Bool
  Target : TargetKind
  deriving DecidableEq, Repr

/-- The values the option objects are initialised with (`cl::init`; a
`cl::opt<bool>` without one starts as `false`). -/
def Options.init : Options :=
  { InputFilenames := [], Language := .Sol, DeployPlatform := .Chain, Action := .EmitWasm,
    OptimizationLevel := .O0, Runtime := false, Target := .EWASM }

/-- The class `FrontendOptions`, as the comment in `ParseCommandLineOptions`
lists its members; an input file is named by its file name. -/
structure FrontendOptions where
  ShowHelp : Bool
  ShowVersion : Bool
  Inputs : List String
  Language : InputKind
  OutputFile : String
  ProgramAction : ActionKind
  deriving DecidableEq, Repr

/-- The members of `TargetOptions` that `ParseCommandLineOptions` writes. -/
structure TargetOptions where
  BackendTarget : TargetKind
  DeployPlatform : DeployPlatformKind
  deriving DecidableEq, Repr

/-- The members of `CodeGenOptions` that `ParseCommandLineOptions` writes. -/
structure CodeGenOptions where
  OptimizationLevel : OptLevel
  Runtime : Bool
  deriving DecidableEq, Repr

/-- The member of `DiagnosticOptions` that `ParseCommandLineOptions` writes. -/
structure DiagnosticOptions where
  ShowColors : Bool
  deriving DecidableEq, Repr

/-- The data members of `CompilerInvocation`.  `DiagRenderer` is `none` for a
null pointer and else holds the options the `TextDiagnostic` was made with. -/
structure CompilerInvocation where
  DiagnosticOpts : DiagnosticOptions
  DiagRenderer : Option DiagnosticOptions
  FrontendOpts : FrontendOptions
  TargetOpts : TargetOptions
  CodeGenOpts : CodeGenOptions
  deriving DecidableEq, Repr

/-- What a call of `llvm::cl::ParseCommandLineOptions` without an error stream
does: it returns its result with the option objects set, or it prints and
ends the process with an exit status. -/
inductive ClOutcome where
  | returned (result : Bool) (opts : Options)
  | exited (status : Int)
  deriving DecidableEq, Repr

/-- The method `CompilerInvocation::ParseCommandLineOptions`.  `clParser` is
`llvm::cl::ParseCommandLineOptions` and `StandardErrHasColors` the result of
`llvm::sys::Process::StandardErrHasColors()`.  The result is an error with
the exit status when the option parser ends the process, else the value
returned and the invocation after the call. -/
def CompilerInvocation.ParseCommandLineOptions (clParser : List String → ClOutcome)
    (StandardErrHasColors : Bool) (Arg : List String) (Inv : CompilerInvocation) :
    Except Int (Bool × CompilerInvocation) :=
  match clParser Arg with
  | .exited status => .error status
  | .returned _ opts =>
    let DiagnosticOpts := { Inv.DiagnosticOpts with ShowColors := StandardErrHasColors }
    let DiagRenderer := some DiagnosticOpts
    let Inputs := opts.InputFilenames.foldl (fun Inputs Filename => Inputs ++ [Filename])
      Inv.FrontendOpts.Inputs
    let FrontendOpts := { Inv.FrontendOpts with
      Inputs := Inputs, ProgramAction := opts.Action, Language := opts.Language }
    let TargetOpts :=
      if opts.Target = .EWASM then
        { Inv.TargetOpts with DeployPlatform := opts.DeployPlatform }
      else Inv.TargetOpts
    let TargetOpts := { TargetOpts with BackendTarget := opts.Target }
    let CodeGenOpts := { Inv.CodeGenOpts with
      OptimizationLevel := opts.OptimizationLevel, Runtime := opts.Runtime }
    .ok (true, { DiagnosticOpts := DiagnosticOpts, DiagRenderer := DiagRenderer,
                  FrontendOpts := FrontendOpts, TargetOpts := TargetOpts,
                  CodeGenOpts := CodeGenOpts })

/-- The macro `EXIT_SUCCESS` of the C library. -/
def EXIT_SUCCESS : Int := 0

/-- The macro `EXIT_FAILURE` of the C library. -/
def EXIT_FAILURE : Int := 1

/-- The four `return` statements of `main`, in source order. -/
inductive MainReturn where
  | fixupFailed
  | parseFailed
  | executeFailed
  | done
  deriving DecidableEq, Repr

/-- The value each `return` statement of `main` returns. -/
def MainReturn.status : MainReturn → Int
  | .fixupFailed => EXIT_FAILURE
  | .parseFailed => EXIT_FAILURE
  | .executeFailed => EXIT_FAILURE
  | .done => EXIT_SUCCESS

/-- How a run of `main` ends: at one of its `return` statements, or inside
the option parser, which ends the process. -/
inductive MainResult where
  | returns (stmt : MainReturn)
  | exits (status : Int)
  deriving DecidableEq, Repr

/-- What `main` calls outside of this repository's sources:
`FixupStandardFileDescriptors` (whether its error code is set), the option
parser, `StandardErrHasColors`, the invocation of a new `CompilerInstance`,
and `ExecuteCompilerInvocation` on the instance with its invocation. -/
structure Environment where
  FixupStandardFileDescriptors : Bool
  clParser : List String → ClOutcome
  StandardErrHasColors : Bool
  Invocation : CompilerInvocation
  ExecuteCompilerInvocation : CompilerInvocation → Bool

/-- The function `main` of `tools/soll/main.cpp`. -/
def main (env : Environment) (argv : List String) : MainResult :=
  if env.FixupStandardFileDescriptors then
    .returns .fixupFailed
  else
    match CompilerInvocation.ParseCommandLineOptions env.clParser env.StandardErrHasColors
        argv env.Invocation with
    | .error status => .exits status
    | .ok (parsed, Inv) =>
      if !parsed then
        .returns .parseFailed
      else if !env.ExecuteCompilerInvocation Inv then
        .returns .executeFailed
      else
        .returns .done

/-- An example environment: the standard file descriptors are fine, the
option parser returns `false` with the options at their initial values, and
the compilation succeeds. -/
def exampleEnvironment : Environment :=
  { FixupStandardFileDescriptors := false,
    clParser := fun _ => .returned false Options.init,
    StandardErrHasColors := false,
    Invocation :=
      { DiagnosticOpts := { ShowColors := false }, DiagRenderer := none,
        FrontendOpts := { ShowHelp := false, ShowVersion := false, Inputs := [],
                          Language := .Sol, OutputFile := "", ProgramAction := .EmitLLVM },
        TargetOpts := { BackendTarget := .EWASM, DeployPlatform := .Chain },
        CodeGenOpts := { OptimizationLevel := .O0, Runtime := false } },
    ExecuteCompilerInvocation := fun _ => true }

end soll

namespace soll.CodeGen

/-! ### Lemmas on the map -/

theorem DenseMap.find_isSome_iff (M : DeclMapTy) (k : VarDeclPtr) :
    (DenseMap.find M k).isSome = true ↔ Bound M k := by
  unfold DenseMap.find Bound
  induction M with
  | nil => simp
  | cons e M ih =>
    rcases e with ⟨k', a'⟩
    by_cases h : k' = k
    · subst h
      simp [List.find?]
    · have hb : (k' == k) = false := by simpa using h
      simp only [List.find?, hb, ih, List.mem_cons, Prod.mk.injEq]
      constructor
      · rintro ⟨a, ha⟩
        exact ⟨a, Or.inr ha⟩
      · rintro ⟨a, ha | ha⟩
        · exact absurd ha.1.symm h
        · exact ⟨a, ha⟩

theorem DenseMap.find_eq_none_iff (M : DeclMapTy) (k : VarDeclPtr) :
    DenseMap.find M k = none ↔ ¬ Bound M k := by
  rw [← DenseMap.find_isSome_iff]
  cases DenseMap.find M k <;> simp

theorem DenseMap.count_eq_zero_iff (M : DeclMapTy) (k : VarDeclPtr) :
    DenseMap.count M k = 0 ↔ ¬ Bound M k := by
  rw [← DenseMap.find_isSome_iff]
  unfold DenseMap.count
  cases DenseMap.find M k <;> simp

theorem DenseMap.find_mem (M : DeclMapTy) (k : VarDeclPtr) (a : ValuePtr)
    (h : DenseMap.find M k = some a) : (k, a) ∈ M := by
  unfold DenseMap.find at h
  cases hf : List.find? (fun e => e.1 == k) M with
  | none => simp [hf] at h
  | some e =>
    simp [hf] at h
    have h1 := List.find?_some hf
    have h2 := List.mem_of_find?_eq_some hf
    simp at h1
    rcases e with ⟨k', a'⟩
    simp at h h1
    subst h h1
    exact h2

theorem DenseMap.find_append_of_some (M N : DeclMapTy) (k : VarDeclPtr) (a : ValuePtr)
    (h : DenseMap.find M k = some a) : DenseMap.find (M ++ N) k = some a := by
  unfold DenseMap.find at h ⊢
  cases hf : List.find? (fun e => e.1 == k) M with
  | none => simp [hf] at h
  | some e =>
    rw [List.find?_append, hf]
    simpa [hf] using h

theorem DenseMap.find_append_of_none (M N : DeclMapTy) (k : VarDeclPtr)
    (h : DenseMap.find M k = none) : DenseMap.find (M ++ N) k = DenseMap.find N k := by
  unfold DenseMap.find at h ⊢
  cases hf : List.find? (fun e => e.1 == k) M with
  | none => rw [List.find?_append, hf]; rfl
  | some e => simp [hf] at h

theorem DenseMap.find_singleton (k k' : VarDeclPtr) (a : ValuePtr) :
    DenseMap.find [(k', a)] k = if k' = k then some a else none := by
  unfold DenseMap.find
  by_cases h : k' = k
  · simp [List.find?, h]
  · have hb : (k' == k) = false := by simpa using h
    simp [List.find?, hb, h]

/-- A successful `setAddrOfLocalVar` appends exactly the new entry. -/
theorem setAddrOfLocalVar_ok_iff (M M' : DeclMapTy) (v : VarDeclPtr) (a : ValuePtr) :
    setAddrOfLocalVar M v a = .ok M' ↔ (¬ Bound M v ∧ M' = M ++ [(v, a)]) := by
  unfold setAddrOfLocalVar
  by_cases hb : Bound M v
  · have hc : DenseMap.count M v ≠ 0 := fun h => (DenseMap.count_eq_zero_iff M v).1 h hb
    simp [hc, hb]
  · have hc : DenseMap.count M v = 0 := (DenseMap.count_eq_zero_iff M v).2 hb
    simp [hc, hb, DenseMap.insert]
    exact eq_comm

theorem setAddrOfLocalVar_error_iff (M : DeclMapTy) (v : VarDeclPtr) (a : ValuePtr) :
    (∃ e, setAddrOfLocalVar M v a = .error e) ↔ Bound M v := by
  unfold setAddrOfLocalVar
  by_cases hb : Bound M v
  · have hc : DenseMap.count M v ≠ 0 := fun h => (DenseMap.count_eq_zero_iff M v).1 h hb
    simp [hc, hb]
  · have hc : DenseMap.count M v = 0 := (DenseMap.count_eq_zero_iff M v).2 hb
    simp [hc, hb]

/-- What a declaration resolves to after another entry was appended. -/
theorem DenseMap.find_after_append (M : DeclMapTy) (v w : VarDeclPtr) (a : ValuePtr)
    (hv : ¬ Bound M v) :
    DenseMap.find (M ++ [(v, a)]) w = if v = w then some a else DenseMap.find M w := by
  by_cases h : v = w
  · subst h
    rw [DenseMap.find_append_of_none M _ v ((DenseMap.find_eq_none_iff M v).2 hv),
      DenseMap.find_singleton]
    simp
  · simp only [h, if_false]
    cases hf : DenseMap.find M w with
    | none => rw [DenseMap.find_append_of_none M _ w hf, DenseMap.find_singleton]; simp [h]
    | some b => exact DenseMap.find_append_of_some M _ w b hf


theorem getAddrOfLocalVar_eq_ok_iff (M : DeclMapTy) (v : VarDeclPtr) (r : ValuePtr × DeclMapTy) :
    getAddrOfLocalVar M v = .ok r ↔ (DenseMap.find M v = some r.1 ∧ r.2 = M) := by
  unfold getAddrOfLocalVar
  rcases r with ⟨a, N⟩
  cases hf : DenseMap.find M v with
  | none => simp
  | some b =>
    simp only [Except.ok.injEq, Prod.mk.injEq, Option.some.injEq]
    constructor
    · rintro ⟨h1, h2⟩
      exact ⟨h1, h2.symm⟩
    · rintro ⟨h1, h2⟩
      exact ⟨h1, h2.symm⟩

theorem getAddrOfLocalVar_of_find (M : DeclMapTy) (v : VarDeclPtr) (a : ValuePtr)
    (h : DenseMap.find M v = some a) : getAddrOfLocalVar M v = .ok (a, M) :=
  (getAddrOfLocalVar_eq_ok_iff M v (a, M)).2 ⟨h, rfl⟩

/-- In a map without duplicate keys an entry is what its key resolves to. -/
theorem DenseMap.find_of_mem_nodup (M : DeclMapTy) (hnd : (M.map Prod.fst).Nodup)
    (v : VarDeclPtr) (a : ValuePtr) (h : (v, a) ∈ M) : DenseMap.find M v = some a := by
  induction M with
  | nil => simp at h
  | cons e M ih =>
    rcases e with ⟨k', a'⟩
    simp only [List.map_cons, List.nodup_cons, List.mem_map, Prod.exists,
      exists_and_right, exists_eq_right, not_exists] at hnd
    simp only [List.mem_cons, Prod.mk.injEq] at h
    rcases h with ⟨hk, ha⟩ | h
    · subst hk ha
      simp [DenseMap.find, List.find?]
    · have hne : k' ≠ v := by
        intro hk
        subst hk
        exact hnd.1 a h
      have hb : (k' == v) = false := by simpa using hne
      have := ih hnd.2 h
      unfold DenseMap.find at this ⊢
      simpa [List.find?, hb] using this

/-- A successful step keeps every binding, keeps the keys free of duplicates
and adds one entry exactly when it is a declaration. -/
theorem MapOp.step_ok (M M' : DeclMapTy) (op : MapOp) (h : MapOp.step M op = .ok M') :
    (∀ v a, DenseMap.find M v = some a → DenseMap.find M' v = some a) ∧
    (∀ e, e ∈ M → e ∈ M') ∧
    ((M.map Prod.fst).Nodup → (M'.map Prod.fst).Nodup) ∧
    DenseMap.size M' = DenseMap.size M + MapOp.declares [op] := by
  cases op with
  | declare w b =>
    simp only [MapOp.step] at h
    obtain ⟨hb, rfl⟩ := (setAddrOfLocalVar_ok_iff M M' w b).1 h
    refine ⟨fun v a hf => DenseMap.find_append_of_some M _ v a hf,
      fun e he => List.mem_append_left _ he, ?_, ?_⟩
    · intro hnd
      rw [List.map_append, List.nodup_append]
      refine ⟨hnd, by simp, ?_⟩
      intro k hk hk'
      simp only [List.map_cons, List.map_nil, List.mem_singleton] at hk'
      subst hk'
      simp only [List.mem_map, Prod.exists, exists_and_right, exists_eq_right] at hk
      exact hb hk
    · simp [DenseMap.size, MapOp.declares]
  | resolve w =>
    simp only [MapOp.step] at h
    cases hg : getAddrOfLocalVar M w with
    | error e => simp [hg, Except.map] at h
    | ok r =>
      have := (getAddrOfLocalVar_eq_ok_iff M w r).1 hg
      simp only [hg, Except.map, Except.ok.injEq] at h
      have hM : M' = M := by rw [← h, this.2]
      subst hM
      exact ⟨fun _ _ hf => hf, fun _ he => he, fun hnd => hnd, by simp [DenseMap.size, MapOp.declares]⟩

theorem MapOp.declares_append (ops1 ops2 : List MapOp) :
    MapOp.declares (ops1 ++ ops2) = MapOp.declares ops1 + MapOp.declares ops2 := by
  induction ops1 with
  | nil => simp [MapOp.declares]
  | cons op ops ih =>
    cases op
    · simp [MapOp.declares, ih]; omega
    · simp [MapOp.declares, ih]

/-- A successful run keeps every binding, keeps the keys free of duplicates
and adds one entry per declaration. -/
theorem MapOp.run_ok (ops : List MapOp) (M M' : DeclMapTy) (h : MapOp.run M ops = .ok M') :
    (∀ v a, DenseMap.find M v = some a → DenseMap.find M' v = some a) ∧
    (∀ e, e ∈ M → e ∈ M') ∧
    ((M.map Prod.fst).Nodup → (M'.map Prod.fst).Nodup) ∧
    DenseMap.size M' = DenseMap.size M + MapOp.declares ops := by
  induction ops generalizing M with
  | nil =>
    simp only [MapOp.run, Except.ok.injEq] at h
    subst h
    exact ⟨fun _ _ hf => hf, fun _ he => he, fun hnd => hnd, by simp [MapOp.declares]⟩
  | cons op ops ih =>
    simp only [MapOp.run] at h
    cases hs : MapOp.step M op with
    | error e => simp [hs] at h
    | ok M1 =>
      simp only [hs] at h
      obtain ⟨s1, s2, s3, s4⟩ := MapOp.step_ok M M1 op hs
      obtain ⟨r1, r2, r3, r4⟩ := ih M1 h
      refine ⟨fun v a hf => r1 v a (s1 v a hf), fun e he => r2 e (s2 e he),
        fun hnd => r3 (s3 hnd), ?_⟩
      rw [r4, s4]
      have := MapOp.declares_append [op] ops
      simp only [List.singleton_append] at this
      omega

/-- Declaring `v1` and then `v2`, both unbound and distinct. -/
theorem setAddrOfLocalVar_two (M : DeclMapTy) (v1 v2 : VarDeclPtr) (a1 a2 : ValuePtr)
    (hne : v1 ≠ v2) (h1 : ¬ Bound M v1) (h2 : ¬ Bound M v2) :
    ∃ M1 M2, setAddrOfLocalVar M v1 a1 = .ok M1 ∧ setAddrOfLocalVar M1 v2 a2 = .ok M2 ∧
      DenseMap.size M2 = DenseMap.size M + 2 ∧
      (v1, a1) ∈ M2 ∧ (v2, a2) ∈ M2 ∧ (v1, a1) ≠ (v2, a2) ∧
      getAddrOfLocalVar M2 v1 = .ok (a1, M2) ∧ getAddrOfLocalVar M2 v2 = .ok (a2, M2) := by
  have hb2 : ¬ Bound (M ++ [(v1, a1)]) v2 := by
    rintro ⟨a, ha⟩
    simp only [List.mem_append, List.mem_singleton, Prod.mk.injEq] at ha
    rcases ha with ha | ha
    · exact h2 ⟨a, ha⟩
    · exact hne ha.1.symm
  refine ⟨M ++ [(v1, a1)], (M ++ [(v1, a1)]) ++ [(v2, a2)],
    (setAddrOfLocalVar_ok_iff _ _ _ _).2 ⟨h1, rfl⟩,
    (setAddrOfLocalVar_ok_iff _ _ _ _).2 ⟨hb2, rfl⟩, by simp [DenseMap.size],
    by simp, by simp, ?_, ?_, ?_⟩
  · intro h
    exact hne (Prod.mk.inj h).1
  · apply getAddrOfLocalVar_of_find
    rw [DenseMap.find_after_append _ v2 v1 a2 hb2, DenseMap.find_after_append _ v1 v1 a1 h1]
    simp [Ne.symm hne]
  · apply getAddrOfLocalVar_of_find
    rw [DenseMap.find_after_append _ v2 v2 a2 hb2]
    simp

/-! ### The claims on the local-declaration map -/

/-- C1: `setAddrOfLocalVar(v, a)` fails fatally exactly when `v` is already
bound in the map; when `v` is unbound the call succeeds and the map it leaves
has the entry `(v, a)` and resolves `v` to `a`. -/
theorem setAddrOfLocalVar_fails_iff_bound (M : DeclMapTy) (v : VarDeclPtr) (a : ValuePtr) :
    ((∃ e, setAddrOfLocalVar M v a = .error e) ↔ Bound M v) ∧
    (¬ Bound M v → ∃ M', setAddrOfLocalVar M v a = .ok M' ∧ (v, a) ∈ M' ∧
      DenseMap.find M' v = some a ∧ getAddrOfLocalVar M' v = .ok (a, M')) := by
  refine ⟨setAddrOfLocalVar_error_iff M v a, fun hb => ⟨M ++ [(v, a)],
    (setAddrOfLocalVar_ok_iff _ _ _ _).2 ⟨hb, rfl⟩, by simp, ?_, ?_⟩⟩
  · rw [DenseMap.find_after_append M v v a hb]; simp
  · apply getAddrOfLocalVar_of_find
    rw [DenseMap.find_after_append M v v a hb]; simp

/-- Witness of C1: declaring the unbound declaration 2 in a map that binds 1. -/
theorem setAddrOfLocalVar_fails_iff_bound_witness :
    ∃ M', setAddrOfLocalVar [(1, 10)] 2 20 = .ok M' ∧ (2, 20) ∈ M' ∧
      DenseMap.find M' 2 = some 20 ∧ getAddrOfLocalVar M' 2 = .ok (20, M') :=
  (setAddrOfLocalVar_fails_iff_bound [(1, 10)] 2 20).2
    (by rintro ⟨a, ha⟩; simp at ha)

/-- C2: `getAddrOfLocalVar(v)` fails fatally exactly when `v` is unbound in
the map; when `v` is bound the call returns a handle of an entry of `v` and
leaves the map as it was, and in a map without duplicate keys it returns the
handle of every entry of `v`. -/
theorem getAddrOfLocalVar_fails_iff_unbound (M : DeclMapTy) (v : VarDeclPtr) :
    ((∃ e, getAddrOfLocalVar M v = .error e) ↔ ¬ Bound M v) ∧
    (Bound M v → ∃ a, (v, a) ∈ M ∧ getAddrOfLocalVar M v = .ok (a, M)) ∧
    ((M.map Prod.fst).Nodup → ∀ a, (v, a) ∈ M → getAddrOfLocalVar M v = .ok (a, M)) := by
  refine ⟨?_, ?_, ?_⟩
  · rw [← DenseMap.find_eq_none_iff]
    unfold getAddrOfLocalVar
    cases DenseMap.find M v <;> simp
  · intro hb
    have hs := (DenseMap.find_isSome_iff M v).2 hb
    cases hf : DenseMap.find M v with
    | none => simp [hf] at hs
    | some a => exact ⟨a, DenseMap.find_mem M v a hf, getAddrOfLocalVar_of_find M v a hf⟩
  · intro hnd a ha
    exact getAddrOfLocalVar_of_find M v a (DenseMap.find_of_mem_nodup M hnd v a ha)

/-- Witness of C2: resolving the bound declaration 1. -/
theorem getAddrOfLocalVar_fails_iff_unbound_witness :
    getAddrOfLocalVar [(1, 10), (2, 20)] 1 = .ok (10, [(1, 10), (2, 20)]) :=
  (getAddrOfLocalVar_fails_iff_unbound [(1, 10), (2, 20)] 1).2.2 (by decide) 10 (by decide)

/-- C3: two distinct declarations `v1` and `v2`, declared in either order in
a map that binds neither, give a map with two more entries, `(v1, a1)` and
`(v2, a2)`, which are different entries, in which `v1` resolves to `a1` and
`v2` to `a2`; and a successful declaration of `v` leaves what every other
declaration resolves to as it was.  The key is the identity of the
declaration alone, so this holds whatever the source names are. -/
theorem distinct_declarations_resolve (M : DeclMapTy) (v1 v2 : VarDeclPtr) (a1 a2 : ValuePtr)
    (hne : v1 ≠ v2) (h1 : ¬ Bound M v1) (h2 : ¬ Bound M v2) :
    (∃ M1 M2, setAddrOfLocalVar M v1 a1 = .ok M1 ∧ setAddrOfLocalVar M1 v2 a2 = .ok M2 ∧
      DenseMap.size M2 = DenseMap.size M + 2 ∧
      (v1, a1) ∈ M2 ∧ (v2, a2) ∈ M2 ∧ (v1, a1) ≠ (v2, a2) ∧
      getAddrOfLocalVar M2 v1 = .ok (a1, M2) ∧ getAddrOfLocalVar M2 v2 = .ok (a2, M2)) ∧
    (∃ M1 M2, setAddrOfLocalVar M v2 a2 = .ok M1 ∧ setAddrOfLocalVar M1 v1 a1 = .ok M2 ∧
      DenseMap.size M2 = DenseMap.size M + 2 ∧
      (v1, a1) ∈ M2 ∧ (v2, a2) ∈ M2 ∧ (v1, a1) ≠ (v2, a2) ∧
      getAddrOfLocalVar M2 v1 = .ok (a1, M2) ∧ getAddrOfLocalVar M2 v2 = .ok (a2, M2)) ∧
    (∀ (N N' : DeclMapTy) (v w : VarDeclPtr) (a : ValuePtr),
      setAddrOfLocalVar N v a = .ok N' → w ≠ v →
      (getAddrOfLocalVar N' w).map Prod.fst = (getAddrOfLocalVar N w).map Prod.fst) := by
  refine ⟨setAddrOfLocalVar_two M v1 v2 a1 a2 hne h1 h2, ?_, ?_⟩
  · obtain ⟨M1, M2, e1, e2, e3, e4, e5, e6, e7, e8⟩ :=
      setAddrOfLocalVar_two M v2 v1 a2 a1 (Ne.symm hne) h2 h1
    exact ⟨M1, M2, e1, e2, e3, e5, e4, Ne.symm e6, e8, e7⟩
  · intro N N' v w a hs hw
    obtain ⟨hb, rfl⟩ := (setAddrOfLocalVar_ok_iff N N' v a).1 hs
    have hf := DenseMap.find_after_append N v w a hb
    simp only [Ne.symm hw, if_false] at hf
    unfold getAddrOfLocalVar
    rw [hf]
    cases DenseMap.find N w <;> rfl

/-- Witness of C3: the declarations 1 and 2 in the empty map. -/
theorem distinct_declarations_resolve_witness :
    (∃ M1 M2, setAddrOfLocalVar [] 1 10 = .ok M1 ∧ setAddrOfLocalVar M1 2 20 = .ok M2 ∧
      DenseMap.size M2 = DenseMap.size [] + 2 ∧
      (1, 10) ∈ M2 ∧ (2, 20) ∈ M2 ∧ ((1, 10) : VarDeclPtr × ValuePtr) ≠ (2, 20) ∧
      getAddrOfLocalVar M2 1 = .ok (10, M2) ∧ getAddrOfLocalVar M2 2 = .ok (20, M2)) :=
  (distinct_declarations_resolve [] 1 2 10 20 (by decide)
    (by rintro ⟨a, ha⟩; simp at ha) (by rintro ⟨a, ha⟩; simp at ha)).1

/-- C6: in every state `M1` reached from the empty map by successful calls,
and every state `M2` reached from `M1` by further successful calls: what a
declaration resolves to in `M1` it resolves to in `M2`, every entry of `M1`
is an entry of `M2` and is what its key resolves to there, no key has two
entries, and the number of entries is the number of declarations made. -/
theorem bindings_permanent (ops1 ops2 : List MapOp) (M1 M2 : DeclMapTy)
    (h1 : MapOp.run [] ops1 = .ok M1) (h2 : MapOp.run M1 ops2 = .ok M2) :
    (∀ v a, getAddrOfLocalVar M1 v = .ok (a, M1) → getAddrOfLocalVar M2 v = .ok (a, M2)) ∧
    (∀ v a, (v, a) ∈ M1 → (v, a) ∈ M2 ∧ getAddrOfLocalVar M2 v = .ok (a, M2)) ∧
    (M2.map Prod.fst).Nodup ∧
    DenseMap.size M1 = MapOp.declares ops1 ∧
    DenseMap.size M2 = MapOp.declares ops1 + MapOp.declares ops2 := by
  obtain ⟨_, _, r3, r4⟩ := MapOp.run_ok ops1 [] M1 h1
  obtain ⟨s1, s2, s3, s4⟩ := MapOp.run_ok ops2 M1 M2 h2
  have hnd1 : (M1.map Prod.fst).Nodup := r3 (by simp)
  have hsz : DenseMap.size M1 = MapOp.declares ops1 := by
    rw [r4]; simp [DenseMap.size]
  refine ⟨?_, ?_, s3 hnd1, hsz, by rw [s4, hsz]⟩
  · intro v a hg
    have hf := ((getAddrOfLocalVar_eq_ok_iff M1 v (a, M1)).1 hg).1
    exact getAddrOfLocalVar_of_find M2 v a (s1 v a hf)
  · intro v a hm
    refine ⟨s2 _ hm, ?_⟩
    exact getAddrOfLocalVar_of_find M2 v a (s1 v a (DenseMap.find_of_mem_nodup M1 hnd1 v a hm))

/-- Witness of C6: two declarations, then a lookup and a third declaration. -/
theorem bindings_permanent_witness :
    (∀ v a, getAddrOfLocalVar [(1, 10), (2, 20)] v = .ok (a, [(1, 10), (2, 20)]) →
      getAddrOfLocalVar [(1, 10), (2, 20), (3, 30)] v = .ok (a, [(1, 10), (2, 20), (3, 30)])) ∧
    (∀ v a, (v, a) ∈ [(1, 10), (2, 20)] → (v, a) ∈ [(1, 10), (2, 20), (3, 30)] ∧
      getAddrOfLocalVar [(1, 10), (2, 20), (3, 30)] v = .ok (a, [(1, 10), (2, 20), (3, 30)])) ∧
    (([(1, 10), (2, 20), (3, 30)] : DeclMapTy).map Prod.fst).Nodup ∧
    DenseMap.size [(1, 10), (2, 20)] = MapOp.declares [.declare 1 10, .declare 2 20] ∧
    DenseMap.size [(1, 10), (2, 20), (3, 30)] =
      MapOp.declares [.declare 1 10, .declare 2 20] +
        MapOp.declares [.resolve 1, .declare 3 30] :=
  bindings_permanent [.declare 1 10, .declare 2 20] [.resolve 1, .declare 3 30]
    [(1, 10), (2, 20)] [(1, 10), (2, 20), (3, 30)] rfl rfl

/-! ### The break/continue stack -/

theorem SmallVector.back_push_back (S : BreakContinueStackTy) (x : BreakContinue) :
    SmallVector.back (SmallVector.push_back S x) = some x := by
  simp [SmallVector.back, SmallVector.push_back]

theorem SmallVector.pop_back_push_back (S : BreakContinueStackTy) (x : BreakContinue) :
    SmallVector.pop_back (SmallVector.push_back S x) = some S := by
  simp [SmallVector.pop_back, SmallVector.push_back]

/-- A sequence of operations that starts at depth `d` and never leaves more
loops than are open works on the `d` topmost entries only. -/
theorem LoopOp.run_of_depth (ops : List LoopOp) :
    ∀ (d d' : Nat) (S T : BreakContinueStackTy), LoopOp.depth d ops = some d' → T.length = d →
      ∃ T', T'.length = d' ∧ LoopOp.run (S ++ T) ops = some (S ++ T') := by
  induction ops with
  | nil =>
    intro d d' S T h hT
    simp only [LoopOp.depth, Option.some.injEq] at h
    exact ⟨T, by omega, rfl⟩
  | cons op ops ih =>
    intro d d' S T h hT
    cases op with
    | enter b c =>
      simp only [LoopOp.depth] at h
      obtain ⟨T', hT', hrun⟩ := ih (d + 1) d' S (T ++ [BreakContinue.ctor b c]) h (by simp [hT])
      refine ⟨T', hT', ?_⟩
      simp only [LoopOp.run, LoopOp.step, SmallVector.push_back]
      rw [List.append_assoc]
      exact hrun
    | exit =>
      cases d with
      | zero => simp [LoopOp.depth] at h
      | succ d0 =>
        simp only [LoopOp.depth] at h
        have hne : T ≠ [] := by
          intro hnil
          rw [hnil] at hT
          simp at hT
        obtain ⟨T', hT', hrun⟩ := ih d0 d' S T.dropLast h (by simp [hT])
        refine ⟨T', hT', ?_⟩
        have hpop : SmallVector.pop_back (S ++ T) = some (S ++ T.dropLast) := by
          simp [SmallVector.pop_back, hne, List.dropLast_append_of_ne_nil]
        simp only [LoopOp.run, LoopOp.step, hpop]
        exact hrun

/-- A properly nested sequence of operations leaves the stack as it was. -/
theorem LoopOp.run_nested (ops : List LoopOp) (S : BreakContinueStackTy)
    (h : LoopOp.nested ops = true) : LoopOp.run S ops = some S := by
  have hd : LoopOp.depth 0 ops = some 0 := by simpa [LoopOp.nested] using h
  obtain ⟨T', hT', hrun⟩ := LoopOp.run_of_depth ops 0 0 S [] hd rfl
  have : T' = [] := List.length_eq_zero.1 hT'
  subst this
  simpa using hrun

/-- C4: the control-transfer stack is LIFO.  After `BreakContinue(b, c)` is
pushed on any stack `S`, the top entry has break block `b` and continue block
`c`, and a pop gives `S` again; and after entering a loop with `(b, c)` and
any properly nested sequence of enter and exit operations, the top entry is
still the pair of that loop, and leaving the loop gives `S` again. -/
theorem breakContinueStack_lifo (S : BreakContinueStackTy) (b c : BlockPtr) :
    (BreakContinue.ctor b c).BreakBlock = b ∧ (BreakContinue.ctor b c).ContinueBlock = c ∧
    SmallVector.back (SmallVector.push_back S (BreakContinue.ctor b c)) =
      some { BreakBlock := b, ContinueBlock := c } ∧
    SmallVector.pop_back (SmallVector.push_back S (BreakContinue.ctor b c)) = some S ∧
    (∀ ops, LoopOp.nested ops = true →
      ∃ S', LoopOp.run S (.enter b c :: ops) = some S' ∧
        SmallVector.back S' = some { BreakBlock := b, ContinueBlock := c } ∧
        LoopOp.run S (.enter b c :: ops ++ [.exit]) = some S) := by
  refine ⟨rfl, rfl, SmallVector.back_push_back S _, SmallVector.pop_back_push_back S _, ?_⟩
  intro ops hops
  have hrun := LoopOp.run_nested ops (SmallVector.push_back S (BreakContinue.ctor b c)) hops
  refine ⟨SmallVector.push_back S (BreakContinue.ctor b c), ?_, SmallVector.back_push_back S _, ?_⟩
  · simpa [LoopOp.run, LoopOp.step] using hrun
  · have hd : LoopOp.depth 0 ops = some 0 := by simpa [LoopOp.nested] using hops
    have hall : LoopOp.nested (.enter b c :: ops ++ [.exit]) = true := by
      have key : ∀ (l : List LoopOp) (d d' : Nat), LoopOp.depth d l = some d' →
          LoopOp.depth (d + 1) (l ++ [.exit]) = some d' := by
        intro l
        induction l with
        | nil =>
          intro d d' h
          simp only [LoopOp.depth, Option.some.injEq] at h
          simp [LoopOp.depth, h]
        | cons op l ih =>
          intro d d' h
          cases op with
          | enter b' c' =>
            simp only [LoopOp.depth] at h
            simpa [LoopOp.depth] using ih (d + 1) d' h
          | exit =>
            cases d with
            | zero => simp [LoopOp.depth] at h
            | succ d0 =>
              simp only [LoopOp.depth] at h
              simpa [LoopOp.depth] using ih d0 d' h
      simp only [LoopOp.nested, List.cons_append, LoopOp.depth]
      simpa using key ops 0 0 hd
    exact LoopOp.run_nested _ S hall

/-- Witness of C4: a loop with an inner loop entered and left in its body. -/
theorem breakContinueStack_lifo_witness :
    ∃ S', LoopOp.run [BreakContinue.ctor 1 2] (.enter 5 4 :: [.enter 9 8, .exit]) = some S' ∧
      SmallVector.back S' = some { BreakBlock := 5, ContinueBlock := 4 } ∧
      LoopOp.run [BreakContinue.ctor 1 2] (.enter 5 4 :: [.enter 9 8, .exit] ++ [.exit]) =
        some [BreakContinue.ctor 1 2] :=
  (breakContinueStack_lifo [BreakContinue.ctor 1 2] 5 4).2.2.2.2 [.enter 9 8, .exit] (by decide)

/-! ### Block creation -/

/-- What `BasicBlock::Create` does to the IR: one block more, the new one,
which is empty and attached to `P`; the insertion block is not touched; the
block list of `P` gets the new handle and no other block list changes. -/
theorem BasicBlock.Create_spec (Name : String) (P : Option FuncPtr) (st : IRState) :
    (BasicBlock.Create Name P st).1 = st.Blocks.length ∧
    (BasicBlock.Create Name P st).2.Blocks =
      st.Blocks ++ [{ Name := Name, Parent := P, Insts := [] }] ∧
    (BasicBlock.Create Name P st).2.InsertBlock = st.InsertBlock ∧
    (∀ F L, P = some F → st.Functions[F]? = some L →
      (BasicBlock.Create Name P st).2.Functions[F]? = some (L ++ [st.Blocks.length])) ∧
    (∀ G, P ≠ some G → (BasicBlock.Create Name P st).2.Functions[G]? = st.Functions[G]?) := by
  refine ⟨rfl, rfl, rfl, ?_, ?_⟩
  · intro F L hP hL
    subst hP
    simp [BasicBlock.Create, List.getElem?_modify, hL]
  · intro G hG
    cases P with
    | none => rfl
    | some F =>
      have hne : F ≠ G := fun h => hG (by rw [h])
      simp [BasicBlock.Create, List.getElem?_modify, hne]

/-- C5: in a builder state with an insertion block `IB`, `createBasicBlock`
without a parent returns the handle of a new block that is empty and attached
to the function that owns `IB`, and with an explicit function `P` the new
block is attached to `P`.  Either way nothing is wired: the insertion block
of the builder is the same, every existing block is unchanged (no instruction
or branch added), and only the block list of the owning function grows, by
the new handle. -/
theorem createBasicBlock_no_wiring (st : IRState) (Name : String) (IB : BlockPtr)
    (B : BasicBlock) (hIB : st.InsertBlock = some IB) (hB : st.Blocks[IB]? = some B) :
    (∃ st' New, createBasicBlock Name none st = some (st.Blocks.length, st') ∧
      st'.Blocks[st.Blocks.length]? = some New ∧
      New.Parent = B.Parent ∧ New.Insts = [] ∧
      st'.Blocks.length = st.Blocks.length + 1 ∧
      (∀ i, i < st.Blocks.length → st'.Blocks[i]? = st.Blocks[i]?) ∧
      st'.InsertBlock = st.InsertBlock ∧
      (∀ F L, B.Parent = some F → st.Functions[F]? = some L →
        st'.Functions[F]? = some (L ++ [st.Blocks.length])) ∧
      (∀ G, B.Parent ≠ some G → st'.Functions[G]? = st.Functions[G]?)) ∧
    (∀ P : FuncPtr, ∃ st' New,
      createBasicBlock Name (some P) st = some (st.Blocks.length, st') ∧
      st'.Blocks[st.Blocks.length]? = some New ∧
      New.Parent = some P ∧ New.Insts = [] ∧
      st'.Blocks.length = st.Blocks.length + 1 ∧
      (∀ i, i < st.Blocks.length → st'.Blocks[i]? = st.Blocks[i]?) ∧
      st'.InsertBlock = st.InsertBlock ∧
      (∀ L, st.Functions[P]? = some L → st'.Functions[P]? = some (L ++ [st.Blocks.length])) ∧
      (∀ G, G ≠ P → st'.Functions[G]? = st.Functions[G]?)) := by
  constructor
  · obtain ⟨c1, c2, c3, c4, c5⟩ := BasicBlock.Create_spec Name B.Parent st
    refine ⟨(BasicBlock.Create Name B.Parent st).2,
      { Name := Name, Parent := B.Parent, Insts := [] }, ?_, ?_, rfl, rfl, ?_, ?_, c3, c4, c5⟩
    · simp only [createBasicBlock, hIB, IRState.getParent, hB, Option.map_some']
      rw [← c1]
    · rw [c2]; simp
    · rw [c2]; simp
    · intro i hi
      rw [c2, List.getElem?_append_left hi]
  · intro P
    obtain ⟨c1, c2, c3, c4, c5⟩ := BasicBlock.Create_spec Name (some P) st
    refine ⟨(BasicBlock.Create Name (some P) st).2,
      { Name := Name, Parent := some P, Insts := [] }, ?_, ?_, rfl, rfl, ?_, ?_, c3, ?_, ?_⟩
    · simp only [createBasicBlock]
      rw [← c1]
    · rw [c2]; simp
    · rw [c2]; simp
    · intro i hi
      rw [c2, List.getElem?_append_left hi]
    · intro L hL
      exact c4 P L rfl hL
    · intro G hG
      exact c5 G (fun h => hG (Option.some.inj h).symm)

/-- Witness of C5: a function with an entry block that holds one instruction;
the new block is created for the same function and for another one. -/
theorem createBasicBlock_no_wiring_witness :
    (∃ st' New, createBasicBlock "for.cond" none
        { Blocks := [{ Name := "entry", Parent := some 0, Insts := [.eval 7] }],
          Functions := [[0], []], InsertBlock := some 0 } = some (1, st') ∧
      st'.Blocks[1]? = some New ∧ New.Parent = some 0 ∧ New.Insts = [] ∧
      st'.InsertBlock = some 0) ∧
    (∃ st' New, createBasicBlock "for.cond" (some 1)
        { Blocks := [{ Name := "entry", Parent := some 0, Insts := [.eval 7] }],
          Functions := [[0], []], InsertBlock := some 0 } = some (1, st') ∧
      st'.Blocks[1]? = some New ∧ New.Parent = some 1 ∧ New.Insts = [] ∧
      st'.Functions[1]? = some [1]) := by
  have h := createBasicBlock_no_wiring
    { Blocks := [{ Name := "entry", Parent := some 0, Insts := [.eval 7] }],
      Functions := [[0], []], InsertBlock := some 0 } "for.cond" 0
    { Name := "entry", Parent := some 0, Insts := [.eval 7] } rfl rfl
  obtain ⟨⟨st1, N1, a1, a2, a3, a4, _, _, a7, _, _⟩, h2⟩ := h
  obtain ⟨st2, N2, b1, b2, b3, b4, _, _, _, b8, _⟩ := h2 1
  exact ⟨⟨st1, N1, a1, a2, a3, a4, a7⟩, ⟨st2, N2, b1, b2, b3, b4, b8 [] rfl⟩⟩

/-! ### Statement lowering: the builder calls keep the frame -/

theorem CodeGenFunction.Tracks.start (x : CodeGenFunction) (k : Nat)
    (hk : x.IR.InsertBlock = some k) (hlt : k < x.IR.Blocks.length) :
    CodeGenFunction.Tracks x.IR.Blocks.length k x x.BreakContinueStack x :=
  ⟨rfl, rfl, rfl, rfl, le_refl _, le_refl _, fun _ _ _ => rfl, k, hk, hlt, Or.inl rfl⟩

theorem CodeGenFunction.Tracks.length_le {n : Nat} {c : Nat} {a x : CodeGenFunction}
    {S : BreakContinueStackTy} (h : CodeGenFunction.Tracks n c a S x) :
    n ≤ x.IR.Blocks.length :=
  le_trans h.2.2.2.2.1 h.2.2.2.2.2.1

theorem CodeGenFunction.Tracks.createBlock {n : Nat} {c : Nat} {a x : CodeGenFunction}
    {S : BreakContinueStackTy} (h : CodeGenFunction.Tracks n c a S x) (Name : String) :
    ∃ x' P, x.createBlock Name = some (x.IR.Blocks.length, x') ∧
      CodeGenFunction.Tracks n c a S x' ∧
      x'.IR.Blocks.length = x.IR.Blocks.length + 1 ∧
      x'.IR.Blocks[x.IR.Blocks.length]? = some { Name := Name, Parent := P, Insts := [] } ∧
      (∀ i, i < x.IR.Blocks.length → x'.IR.Blocks[i]? = x.IR.Blocks[i]?) ∧
      x'.IR.InsertBlock = x.IR.InsertBlock := by
  obtain ⟨hS, hR, hV, hM, hn, hlen, hfr, k, hk, hlt, hor⟩ := h
  obtain ⟨B, hB⟩ : ∃ B, x.IR.Blocks[k]? = some B :=
    ⟨x.IR.Blocks[k], List.getElem?_eq_getElem hlt⟩
  have hc : (BasicBlock.Create Name B.Parent x.IR).2.Blocks =
      x.IR.Blocks ++ [{ Name := Name, Parent := B.Parent, Insts := [] }] := rfl
  have hl : (BasicBlock.Create Name B.Parent x.IR).2.Blocks.length =
      x.IR.Blocks.length + 1 := by
    rw [hc, List.length_append, List.length_singleton]
  have hold : ∀ i, i < x.IR.Blocks.length →
      (BasicBlock.Create Name B.Parent x.IR).2.Blocks[i]? = x.IR.Blocks[i]? := by
    intro i hi
    rw [hc, List.getElem?_append_left hi]
  refine ⟨{ x with IR := (BasicBlock.Create Name B.Parent x.IR).2 }, B.Parent, ?_, ?_, hl, ?_,
    hold, rfl⟩
  · simp [CodeGenFunction.createBlock, createBasicBlock, hk, IRState.getParent, hB,
      BasicBlock.Create]
  · refine ⟨hS, hR, hV, hM, hn, ?_, ?_, k, hk, ?_, hor⟩
    · show a.IR.Blocks.length ≤ (BasicBlock.Create Name B.Parent x.IR).2.Blocks.length
      omega
    · intro i hi hic
      show (BasicBlock.Create Name B.Parent x.IR).2.Blocks[i]? = a.IR.Blocks[i]?
      rw [hold i (by omega)]
      exact hfr i hi hic
    · show k < (BasicBlock.Create Name B.Parent x.IR).2.Blocks.length
      omega
  · show (BasicBlock.Create Name B.Parent x.IR).2.Blocks[x.IR.Blocks.length]? = _
    rw [hc, List.getElem?_append_right (le_refl _)]
    simp

theorem CodeGenFunction.Tracks.insert {n : Nat} {c : Nat} {a x : CodeGenFunction}
    {S : BreakContinueStackTy} (h : CodeGenFunction.Tracks n c a S x) (I : Inst) :
    ∃ (x' : CodeGenFunction) (k : Nat) (B : BasicBlock),
      x.IR.InsertBlock = some k ∧ x.IR.Blocks[k]? = some B ∧
      x.insert I = some x' ∧ CodeGenFunction.Tracks n c a S x' ∧
      x'.IR.Blocks.length = x.IR.Blocks.length ∧
      x'.IR.Blocks[k]? = some { B with Insts := B.Insts ++ [I] } ∧
      (∀ i, i ≠ k → x'.IR.Blocks[i]? = x.IR.Blocks[i]?) ∧
      x'.IR.InsertBlock = some k := by
  obtain ⟨hS, hR, hV, hM, hn, hlen, hfr, k, hk, hlt, hor⟩ := h
  obtain ⟨B, hB⟩ : ∃ B, x.IR.Blocks[k]? = some B :=
    ⟨x.IR.Blocks[k], List.getElem?_eq_getElem hlt⟩
  have hne : ∀ i, i ≠ k →
      (x.IR.Blocks.set k { B with Insts := B.Insts ++ [I] })[i]? = x.IR.Blocks[i]? := by
    intro i hi
    rw [List.getElem?_set_ne (Ne.symm hi)]
  refine ⟨{ x with IR := { x.IR with
      Blocks := x.IR.Blocks.set k { B with Insts := B.Insts ++ [I] } } }, k, B, hk, hB,
    ?_, ?_, by simp, ?_, hne, hk⟩
  · simp [CodeGenFunction.insert, IRState.Insert, hk, hB]
  · refine ⟨hS, hR, hV, hM, hn, ?_, ?_, k, hk, ?_, hor⟩
    · simpa using hlen
    · intro i hi hic
      have hik : i ≠ k := by
        rcases hor with hor | hor
        · rw [hor]; exact hic
        · omega
      show (x.IR.Blocks.set k { B with Insts := B.Insts ++ [I] })[i]? = a.IR.Blocks[i]?
      rw [hne i hik]
      exact hfr i hi hic
    · simpa using hlt
  · show (x.IR.Blocks.set k { B with Insts := B.Insts ++ [I] })[k]? = _
    rw [List.getElem?_set_self hlt]

theorem CodeGenFunction.Tracks.setInsertPoint {n : Nat} {c : Nat} {a x : CodeGenFunction}
    {S : BreakContinueStackTy} (h : CodeGenFunction.Tracks n c a S x) (k : Nat)
    (hk : n ≤ k) (hlt : k < x.IR.Blocks.length) :
    CodeGenFunction.Tracks n c a S (x.setInsertPoint k) := by
  obtain ⟨hS, hR, hV, hM, hn, hlen, hfr, _⟩ := h
  exact ⟨hS, hR, hV, hM, hn, hlen, hfr, k, rfl, hlt, Or.inr hk⟩

theorem CodeGenFunction.Tracks.emitBranch {n : Nat} {c : Nat} {a x : CodeGenFunction}
    {S : BreakContinueStackTy} (h : CodeGenFunction.Tracks n c a S x) (Target : BlockPtr) :
    ∃ (x' : CodeGenFunction) (k : Nat), x.IR.InsertBlock = some k ∧
      x.emitBranch Target = some x' ∧
      CodeGenFunction.Tracks n c a S x' ∧ x'.IR.InsertBlock = some k ∧
      x'.IR.Blocks.length = x.IR.Blocks.length ∧
      ∀ i, i ≠ k → x'.IR.Blocks[i]? = x.IR.Blocks[i]? := by
  by_cases ht : x.IR.terminated = true
  · obtain ⟨k, hk, _⟩ := h.2.2.2.2.2.2.2
    exact ⟨x, k, hk, by simp [CodeGenFunction.emitBranch, ht], h, hk, rfl, fun _ _ => rfl⟩
  · obtain ⟨x', k, B, hk, hB, hins, htr, hl, _, hne, hib⟩ := h.insert (.br Target)
    exact ⟨x', k, hk, by simp [CodeGenFunction.emitBranch, ht, hins], htr, hib, hl, hne⟩

theorem CodeGenFunction.Tracks.enterLoop {n : Nat} {c : Nat} {a x : CodeGenFunction}
    {S : BreakContinueStackTy} (h : CodeGenFunction.Tracks n c a S x) (Break Continue : BlockPtr) :
    CodeGenFunction.Tracks n c a
      (SmallVector.push_back S (BreakContinue.ctor Break Continue))
      (x.enterLoop Break Continue) := by
  obtain ⟨hS, hR, hV, hM, hrest⟩ := h
  exact ⟨by simp [CodeGenFunction.enterLoop, hS], hR, hV, hM, hrest⟩

theorem CodeGenFunction.Tracks.exitLoop {n : Nat} {c : Nat} {a x : CodeGenFunction}
    {S : BreakContinueStackTy} {T : BreakContinue}
    (h : CodeGenFunction.Tracks n c a (SmallVector.push_back S T) x) :
    ∃ x', x.exitLoop = some x' ∧ CodeGenFunction.Tracks n c a S x' ∧ x'.IR = x.IR := by
  obtain ⟨hS, hR, hV, hM, hrest⟩ := h
  refine ⟨{ x with BreakContinueStack := S }, ?_, ⟨rfl, hR, hV, hM, hrest⟩, rfl⟩
  simp [CodeGenFunction.exitLoop, hS, SmallVector.pop_back_push_back]

theorem CodeGenFunction.Tracks.startUnreachable {n : Nat} {c : Nat}
    {a x : CodeGenFunction} {S : BreakContinueStackTy}
    (h : CodeGenFunction.Tracks n c a S x) :
    ∃ x', x.startUnreachable = some x' ∧ CodeGenFunction.Tracks n c a S x' ∧
      ∀ i, i < x.IR.Blocks.length → x'.IR.Blocks[i]? = x.IR.Blocks[i]? := by
  obtain ⟨x1, P, e1, t1, l1, _, o1, _⟩ := h.createBlock "unreachable"
  refine ⟨x1.setInsertPoint x.IR.Blocks.length, ?_, ?_, o1⟩
  · simp [CodeGenFunction.startUnreachable, e1]
  · exact t1.setInsertPoint _ h.length_le (by rw [l1]; omega)

/-- A piece of lowering that keeps its own frame keeps the frame of the
lowering around it. -/
theorem CodeGenFunction.Tracks.andThen {n : Nat} {c : Nat} {a x y : CodeGenFunction}
    {S : BreakContinueStackTy} (h : CodeGenFunction.Tracks n c a S x) {k : Nat}
    (hk : x.IR.InsertBlock = some k)
    (t : CodeGenFunction.Tracks x.IR.Blocks.length k x x.BreakContinueStack y) :
    CodeGenFunction.Tracks n c a S y ∧ x.IR.Blocks.length ≤ y.IR.Blocks.length := by
  obtain ⟨hS, hR, hV, hM, hn, hlen, hfr, k0, hk0, hlt0, hor0⟩ := h
  obtain ⟨hS', hR', hV', hM', _, hlen', hfr', k', hk', hlt', hor'⟩ := t
  have hkk : k0 = k := by
    rw [hk] at hk0
    exact (Option.some.inj hk0).symm
  subst hkk
  refine ⟨⟨by rw [hS', hS], by rw [hR', hR], by rw [hV', hV], by rw [hM', hM], hn,
    le_trans hlen hlen', ?_, k', hk', hlt', ?_⟩, hlen'⟩
  · intro i hi hic
    have hik : i ≠ k0 := by
      rcases hor0 with hor0 | hor0
      · rw [hor0]; exact hic
      · omega
    rw [hfr' i (by omega) hik]
    exact hfr i hi hic
  · rcases hor' with hor' | hor'
    · rw [hor']; exact hor0
    · right; omega

/-! ### Statement lowering: the abort primitives -/

/-- The shape both conditional abort primitives lower to: two new blocks, a
conditional branch at the end of the block that was current, the terminator
`Fail` alone in the block of the false branch, and the lowering goes on in
the empty block of the true branch. -/
theorem CodeGenFunction.Tracks.condAbort {n : Nat} {c : Nat} {a x : CodeGenFunction}
    {S : BreakContinueStackTy} (h : CodeGenFunction.Tracks n c a S x)
    (N1 N2 : String) (Cond : ExprPtr) (Fail : Inst) :
    ∃ (x1 x2 x3 x4 : CodeGenFunction) (k : Nat) (B : BasicBlock) (P1 P2 : Option FuncPtr),
      x.createBlock N1 = some (x.IR.Blocks.length, x1) ∧
      x1.createBlock N2 = some (x.IR.Blocks.length + 1, x2) ∧
      x2.insert (.condBr Cond x.IR.Blocks.length (x.IR.Blocks.length + 1)) = some x3 ∧
      (x3.setInsertPoint (x.IR.Blocks.length + 1)).insert Fail = some x4 ∧
      CodeGenFunction.Tracks n c a S (x4.setInsertPoint x.IR.Blocks.length) ∧
      x.IR.InsertBlock = some k ∧ k < x.IR.Blocks.length ∧ x.IR.Blocks[k]? = some B ∧
      x4.IR.Blocks.length = x.IR.Blocks.length + 2 ∧
      x4.IR.Blocks[k]? = some { B with Insts := B.Insts ++
        [.condBr Cond x.IR.Blocks.length (x.IR.Blocks.length + 1)] } ∧
      x4.IR.Blocks[x.IR.Blocks.length]? = some { Name := N1, Parent := P1, Insts := [] } ∧
      x4.IR.Blocks[x.IR.Blocks.length + 1]? =
        some { Name := N2, Parent := P2, Insts := [Fail] } ∧
      (∀ i, i < x.IR.Blocks.length → i ≠ k → x4.IR.Blocks[i]? = x.IR.Blocks[i]?) := by
  obtain ⟨k, hk, hlt, _⟩ := h.2.2.2.2.2.2.2
  obtain ⟨x1, P1, e1, t1, l1, n1, o1, i1⟩ := h.createBlock N1
  obtain ⟨x2, P2, e2, t2, l2, n2, o2, i2⟩ := t1.createBlock N2
  rw [l1] at e2 l2 n2
  obtain ⟨x3, k3, B, hk3, hB3, e3, t3, l3, s3, o3, i3⟩ :=
    t2.insert (.condBr Cond x.IR.Blocks.length (x.IR.Blocks.length + 1))
  have hkk : k3 = k := by
    rw [i2, i1, hk] at hk3
    exact (Option.some.inj hk3).symm
  subst hkk
  rw [l2] at l3
  have t3' := t3.setInsertPoint (x.IR.Blocks.length + 1)
    (le_trans h.length_le (Nat.le_succ _)) (by rw [l3]; omega)
  obtain ⟨x4, k4, B4, hk4, hB4, e4, t4, l4, s4, o4, i4⟩ := t3'.insert Fail
  have hk4' : k4 = x.IR.Blocks.length + 1 := (Option.some.inj hk4).symm
  subst hk4'
  have hset : (x3.setInsertPoint (x.IR.Blocks.length + 1)).IR.Blocks = x3.IR.Blocks := rfl
  rw [hset] at hB4 l4 o4
  rw [l3] at l4
  have hBk : x.IR.Blocks[k3]? = some B := by
    rw [o2 k3 (by omega), o1 k3 hlt] at hB3
    exact hB3
  have hB4' : B4 = { Name := N2, Parent := P2, Insts := [] } := by
    rw [o3 _ (by omega), n2] at hB4
    exact (Option.some.inj hB4).symm
  subst hB4'
  refine ⟨x1, x2, x3, x4, k3, B, P1, P2, e1, e2, e3, e4, ?_, hk, hlt, hBk, l4, ?_, ?_, ?_, ?_⟩
  · exact t4.setInsertPoint _ h.length_le (by rw [l4]; omega)
  · rw [o4 k3 (by omega), s3]
  · rw [o4 _ (by omega), o3 _ (by omega), o2 _ (by omega), n1]
  · rw [s4]
    simp
  · intro i hi hik
    rw [o4 i (by omega), o3 i hik, o2 i (by omega), o1 i hi]

theorem emitCallRequire_tracks {n : Nat} {c : Nat} {a x : CodeGenFunction}
    {S : BreakContinueStackTy} (h : CodeGenFunction.Tracks n c a S x)
    (Cond : ExprPtr) (Message : Option ExprPtr) :
    ∃ y, emitCallRequire Cond Message x = some y ∧ CodeGenFunction.Tracks n c a S y := by
  obtain ⟨x1, x2, x3, x4, k, B, P1, P2, e1, e2, e3, e4, t, _⟩ :=
    h.condAbort "require.continue" "require.revert" Cond (.revert Message)
  exact ⟨_, by simp [emitCallRequire, e1, e2, e3, e4], t⟩

theorem emitCallAssert_tracks {n : Nat} {c : Nat} {a x : CodeGenFunction}
    {S : BreakContinueStackTy} (h : CodeGenFunction.Tracks n c a S x) (Cond : ExprPtr) :
    ∃ y, emitCallAssert Cond x = some y ∧ CodeGenFunction.Tracks n c a S y := by
  obtain ⟨x1, x2, x3, x4, k, B, P1, P2, e1, e2, e3, e4, t, _⟩ :=
    h.condAbort "assert.continue" "assert.invalid" Cond .invalid
  exact ⟨_, by simp [emitCallAssert, e1, e2, e3, e4], t⟩

/-- An instruction followed by a fresh block keeps the frame. -/
theorem CodeGenFunction.Tracks.insertThenUnreachable {n : Nat} {c : Nat}
    {a x : CodeGenFunction} {S : BreakContinueStackTy}
    (h : CodeGenFunction.Tracks n c a S x) (I : Inst) :
    ∃ (x1 y : CodeGenFunction) (k : Nat) (B : BasicBlock),
      x.IR.InsertBlock = some k ∧ x.IR.Blocks[k]? = some B ∧
      x.insert I = some x1 ∧ x1.startUnreachable = some y ∧
      CodeGenFunction.Tracks n c a S y ∧
      y.IR.Blocks[k]? = some { B with Insts := B.Insts ++ [I] } := by
  obtain ⟨k0, hk0, hlt0, _⟩ := h.2.2.2.2.2.2.2
  obtain ⟨x1, k, B, hk, hB, e1, t1, l1, s1, _, _⟩ := h.insert I
  have hkk : k = k0 := by
    rw [hk0] at hk
    exact (Option.some.inj hk).symm
  subst hkk
  obtain ⟨y, e2, t2, o2⟩ := t1.startUnreachable
  exact ⟨x1, y, k, B, hk, hB, e1, e2, t2, by rw [o2 k (by rw [l1]; exact hlt0), s1]⟩

theorem emitCallRevert_tracks {n : Nat} {c : Nat} {a x : CodeGenFunction}
    {S : BreakContinueStackTy} (h : CodeGenFunction.Tracks n c a S x)
    (Message : Option ExprPtr) :
    ∃ y, emitCallRevert Message x = some y ∧ CodeGenFunction.Tracks n c a S y := by
  obtain ⟨x1, y, k, B, _, _, e1, e2, t, _⟩ := h.insertThenUnreachable (.revert Message)
  exact ⟨y, by simp [emitCallRevert, e1, e2], t⟩

theorem emitExpr_tracks {n : Nat} {c : Nat} {a x : CodeGenFunction}
    {S : BreakContinueStackTy} (h : CodeGenFunction.Tracks n c a S x) (E : Expr) :
    ∃ y, emitExpr E x = some y ∧ CodeGenFunction.Tracks n c a S y := by
  cases E with
  | callRequire Cond Message => exact emitCallRequire_tracks h Cond Message
  | callAssert Cond => exact emitCallAssert_tracks h Cond
  | callRevert Message => exact emitCallRevert_tracks h Message
  | other E =>
    obtain ⟨y, k, B, _, _, e, t, _⟩ := h.insert (.eval E)
    exact ⟨y, by simp [emitExpr, e], t⟩

/-! ### Statement lowering: break, continue and return -/

theorem SmallVector.back_of_not_isEmpty (S : BreakContinueStackTy)
    (h : (!S.isEmpty) = true) : ∃ T, SmallVector.back S = some T := by
  cases hb : SmallVector.back S with
  | some T => exact ⟨T, rfl⟩
  | none =>
    simp only [SmallVector.back, List.getLast?_eq_none_iff] at hb
    subst hb
    simp at h

theorem SmallVector.push_back_not_isEmpty (S : BreakContinueStackTy) (T : BreakContinue) :
    (!(SmallVector.push_back S T).isEmpty) = true := by
  cases S <;> simp [SmallVector.push_back]

theorem emitBreakStmt_tracks {n : Nat} {c : Nat} {a x : CodeGenFunction}
    {S : BreakContinueStackTy} (h : CodeGenFunction.Tracks n c a S x)
    (T : BreakContinue) (hS : SmallVector.back S = some T) :
    ∃ (y : CodeGenFunction) (k : Nat) (B : BasicBlock),
      x.IR.InsertBlock = some k ∧ x.IR.Blocks[k]? = some B ∧
      emitBreakStmt x = some y ∧ CodeGenFunction.Tracks n c a S y ∧
      y.IR.Blocks[k]? = some { B with Insts := B.Insts ++ [.br T.BreakBlock] } := by
  obtain ⟨x1, y, k, B, hk, hB, e1, e2, t, hy⟩ := h.insertThenUnreachable (.br T.BreakBlock)
  refine ⟨y, k, B, hk, hB, ?_, t, hy⟩
  simp [emitBreakStmt, CodeGenFunction.currentBreakTarget, h.1, hS, e1, e2]

theorem emitContinueStmt_tracks {n : Nat} {c : Nat} {a x : CodeGenFunction}
    {S : BreakContinueStackTy} (h : CodeGenFunction.Tracks n c a S x)
    (T : BreakContinue) (hS : SmallVector.back S = some T) :
    ∃ (y : CodeGenFunction) (k : Nat) (B : BasicBlock),
      x.IR.InsertBlock = some k ∧ x.IR.Blocks[k]? = some B ∧
      emitContinueStmt x = some y ∧ CodeGenFunction.Tracks n c a S y ∧
      y.IR.Blocks[k]? = some { B with Insts := B.Insts ++ [.br T.ContinueBlock] } := by
  obtain ⟨x1, y, k, B, hk, hB, e1, e2, t, hy⟩ := h.insertThenUnreachable (.br T.ContinueBlock)
  refine ⟨y, k, B, hk, hB, ?_, t, hy⟩
  simp [emitContinueStmt, CodeGenFunction.currentContinueTarget, h.1, hS, e1, e2]

theorem emitReturnStmt_tracks {n : Nat} {c : Nat} {a x : CodeGenFunction}
    {S : BreakContinueStackTy} (h : CodeGenFunction.Tracks n c a S x) (E : Option ExprPtr) :
    ∃ y, emitReturnStmt E x = some y ∧ CodeGenFunction.Tracks n c a S y := by
  cases E with
  | none =>
    obtain ⟨x1, y, k, B, _, _, e1, e2, t, _⟩ := h.insertThenUnreachable (.br x.ReturnBlock)
    exact ⟨y, by simp [emitReturnStmt, e1, e2], t⟩
  | some E =>
    obtain ⟨x0, k0, B0, _, _, e0, t0, _⟩ := h.insert (.storeReturn E)
    obtain ⟨x1, y, k, B, _, _, e1, e2, t, _⟩ := t0.insertThenUnreachable (.br x0.ReturnBlock)
    exact ⟨y, by simp [emitReturnStmt, e0, e1, e2], t⟩

/-! ### Statement lowering: if and while -/

theorem emitIfStmt_head_tracks {n : Nat} {c : Nat} {a x : CodeGenFunction}
    {S : BreakContinueStackTy} (h : CodeGenFunction.Tracks n c a S x)
    (Cond : ExprPtr) (hasElse : Bool) :
    ∃ (Thn Els Mrg : Nat) (y : CodeGenFunction),
      emitIfStmt.head Cond hasElse x = some (IfBlocks.mk Thn Els Mrg, y) ∧
      CodeGenFunction.Tracks n c a S y ∧
      n ≤ Els ∧ Els < y.IR.Blocks.length ∧ n ≤ Mrg ∧ Mrg < y.IR.Blocks.length := by
  have hn := h.length_le
  obtain ⟨x1, P1, e1, t1, l1, _, _, _⟩ := h.createBlock "if.then"
  obtain ⟨x2, P2, e2, t2, l2, _, _, _⟩ := t1.createBlock "if.end"
  rw [l1] at e2 l2
  cases hasElse with
  | false =>
    obtain ⟨x3, k, B, _, _, e3, t3, l3, _⟩ :=
      t2.insert (.condBr Cond x.IR.Blocks.length (x.IR.Blocks.length + 1))
    have hl : (x3.setInsertPoint x.IR.Blocks.length).IR.Blocks.length =
        x.IR.Blocks.length + 2 := by
      show x3.IR.Blocks.length = _
      rw [l3, l2]
    refine ⟨x.IR.Blocks.length, x.IR.Blocks.length + 1, x.IR.Blocks.length + 1,
      x3.setInsertPoint x.IR.Blocks.length, ?_,
      t3.setInsertPoint _ hn (by rw [l3, l2]; omega), ?_, ?_, ?_, ?_⟩
    · simp [emitIfStmt.head, e1, e2, e3]
    · omega
    · rw [hl]; omega
    · omega
    · rw [hl]; omega
  | true =>
    obtain ⟨x2', P3, e2', t2', l2', _, _, _⟩ := t2.createBlock "if.else"
    rw [l2] at e2' l2'
    obtain ⟨x3, k, B, _, _, e3, t3, l3, _⟩ :=
      t2'.insert (.condBr Cond x.IR.Blocks.length (x.IR.Blocks.length + 2))
    have hl : (x3.setInsertPoint x.IR.Blocks.length).IR.Blocks.length =
        x.IR.Blocks.length + 3 := by
      show x3.IR.Blocks.length = _
      rw [l3, l2']
    refine ⟨x.IR.Blocks.length, x.IR.Blocks.length + 2, x.IR.Blocks.length + 1,
      x3.setInsertPoint x.IR.Blocks.length, ?_,
      t3.setInsertPoint _ hn (by rw [l3, l2']; omega), ?_, ?_, ?_, ?_⟩
    · simp [emitIfStmt.head, e1, e2, e2', e3]
    · omega
    · rw [hl]; omega
    · omega
    · rw [hl]; omega

theorem emitIfStmt_endArm_tracks {n : Nat} {c : Nat} {a x : CodeGenFunction}
    {S : BreakContinueStackTy} (h : CodeGenFunction.Tracks n c a S x)
    (B : IfBlocks) (Next : Nat) (hn : n ≤ Next) (hlt : Next < x.IR.Blocks.length) :
    ∃ y, emitIfStmt.endArm B Next x = some y ∧ CodeGenFunction.Tracks n c a S y ∧
      x.IR.Blocks.length ≤ y.IR.Blocks.length := by
  obtain ⟨x1, k, _, e1, t1, _, l1, _⟩ := h.emitBranch B.Merge
  refine ⟨x1.setInsertPoint Next, by simp [emitIfStmt.endArm, e1],
    t1.setInsertPoint Next hn (by rw [l1]; exact hlt), ?_⟩
  show x.IR.Blocks.length ≤ x1.IR.Blocks.length
  omega

theorem emitWhileStmt_head_tracks {n : Nat} {c : Nat} {a x : CodeGenFunction}
    {S : BreakContinueStackTy} (h : CodeGenFunction.Tracks n c a S x) (Cond : ExprPtr) :
    ∃ (Cnd Bdy Ext : Nat) (y : CodeGenFunction),
      emitWhileStmt.head Cond x = some (LoopBlocks.mk Cnd Bdy Cnd Ext, y) ∧
      CodeGenFunction.Tracks n c a
        (SmallVector.push_back S (BreakContinue.ctor Ext Cnd)) y ∧
      n ≤ Ext ∧ Ext < y.IR.Blocks.length := by
  have hn := h.length_le
  obtain ⟨x1, P1, e1, t1, l1, _, _, _⟩ := h.createBlock "while.cond"
  obtain ⟨x2, P2, e2, t2, l2, _, _, _⟩ := t1.createBlock "while.body"
  rw [l1] at e2 l2
  obtain ⟨x3, P3, e3, t3, l3, _, _, _⟩ := t2.createBlock "while.end"
  rw [l2] at e3 l3
  obtain ⟨x4, k4, B4, _, _, e4, t4, l4, _⟩ := t3.insert (.br x.IR.Blocks.length)
  rw [l3] at l4
  have t4' := t4.setInsertPoint x.IR.Blocks.length hn (by rw [l4]; omega)
  obtain ⟨x5, k5, B5, _, _, e5, t5, l5, _⟩ :=
    t4'.insert (.condBr Cond (x.IR.Blocks.length + 1) (x.IR.Blocks.length + 2))
  have hset : (x4.setInsertPoint x.IR.Blocks.length).IR.Blocks = x4.IR.Blocks := rfl
  rw [hset, l4] at l5
  have hl5 : ((x5.enterLoop (x.IR.Blocks.length + 2) x.IR.Blocks.length).setInsertPoint
      (x.IR.Blocks.length + 1)).IR.Blocks.length = x.IR.Blocks.length + 3 := l5
  refine ⟨x.IR.Blocks.length, x.IR.Blocks.length + 1, x.IR.Blocks.length + 2,
    (x5.enterLoop (x.IR.Blocks.length + 2) x.IR.Blocks.length).setInsertPoint
      (x.IR.Blocks.length + 1), ?_, ?_, ?_, ?_⟩
  · simp [emitWhileStmt.head, e1, e2, e3, e4, e5]
  · exact (t5.enterLoop _ _).setInsertPoint _ (by omega) (by
      show x.IR.Blocks.length + 1 < x5.IR.Blocks.length
      rw [l5]; omega)
  · omega
  · rw [hl5]
    omega

theorem emitWhileStmt_latch_tracks {n : Nat} {c : Nat} {a x : CodeGenFunction}
    {S : BreakContinueStackTy} {T : BreakContinue}
    (h : CodeGenFunction.Tracks n c a (SmallVector.push_back S T) x)
    (Cnd Bdy Inc Ext : Nat) (hn : n ≤ Ext) (hlt : Ext < x.IR.Blocks.length) :
    ∃ y, emitWhileStmt.latch (LoopBlocks.mk Cnd Bdy Inc Ext) x = some y ∧
      CodeGenFunction.Tracks n c a S y := by
  obtain ⟨x1, k, _, e1, t1, _, l1, _⟩ := h.emitBranch Cnd
  obtain ⟨x2, e2, t2, hIR⟩ := t1.exitLoop
  refine ⟨x2.setInsertPoint Ext, by simp [emitWhileStmt.latch, e1, e2],
    t2.setInsertPoint _ hn (by rw [hIR, l1]; exact hlt)⟩

/-! ### Statement lowering: for -/

theorem emitForStmt_blocks_tracks {n : Nat} {c : Nat} {a x : CodeGenFunction}
    {S : BreakContinueStackTy} (h : CodeGenFunction.Tracks n c a S x) :
    ∃ (x1 : CodeGenFunction) (P0 P1 P2 P3 : Option FuncPtr),
      emitForStmt.blocks x = some (LoopBlocks.mk x.IR.Blocks.length (x.IR.Blocks.length + 1)
        (x.IR.Blocks.length + 2) (x.IR.Blocks.length + 3), x1) ∧
      CodeGenFunction.Tracks n c a S x1 ∧
      x1.IR.Blocks.length = x.IR.Blocks.length + 4 ∧
      x1.IR.InsertBlock = x.IR.InsertBlock ∧
      x1.IR.Blocks[x.IR.Blocks.length]? =
        some { Name := "for.cond", Parent := P0, Insts := [] } ∧
      x1.IR.Blocks[x.IR.Blocks.length + 1]? =
        some { Name := "for.body", Parent := P1, Insts := [] } ∧
      x1.IR.Blocks[x.IR.Blocks.length + 2]? =
        some { Name := "for.inc", Parent := P2, Insts := [] } ∧
      x1.IR.Blocks[x.IR.Blocks.length + 3]? =
        some { Name := "for.end", Parent := P3, Insts := [] } ∧
      ∀ i, i < x.IR.Blocks.length → x1.IR.Blocks[i]? = x.IR.Blocks[i]? := by
  obtain ⟨y1, P0, e1, t1, l1, n1, o1, i1⟩ := h.createBlock "for.cond"
  obtain ⟨y2, P1, e2, t2, l2, n2, o2, i2⟩ := t1.createBlock "for.body"
  rw [l1] at e2 l2 n2
  obtain ⟨y3, P2, e3, t3, l3, n3, o3, i3⟩ := t2.createBlock "for.inc"
  rw [l2] at e3 l3 n3
  obtain ⟨y4, P3, e4, t4, l4, n4, o4, i4⟩ := t3.createBlock "for.end"
  rw [l3] at e4 l4 n4
  refine ⟨y4, P0, P1, P2, P3, by simp [emitForStmt.blocks, e1, e2, e3, e4], t4, l4,
    by rw [i4, i3, i2, i1], ?_, ?_, ?_, n4, ?_⟩
  · rw [o4 _ (by omega), o3 _ (by omega), o2 _ (by omega), n1]
  · rw [o4 _ (by omega), o3 _ (by omega), n2]
  · rw [o4 _ (by omega), n3]
  · intro i hi
    rw [o4 i (by omega), o3 i (by omega), o2 i (by omega), o1 i hi]

theorem emitForStmt_head_tracks {n : Nat} {c : Nat} {a x : CodeGenFunction}
    {S : BreakContinueStackTy} (h : CodeGenFunction.Tracks n c a S x) (Cond : ExprPtr)
    (Cnd Bdy Inc Ext : Nat) (hC : n ≤ Cnd) (hCl : Cnd < x.IR.Blocks.length)
    (hB : n ≤ Bdy) (hBl : Bdy < x.IR.Blocks.length) :
    ∃ (y : CodeGenFunction) (k : Nat), x.IR.InsertBlock = some k ∧
      emitForStmt.head Cond (LoopBlocks.mk Cnd Bdy Inc Ext) x = some y ∧
      CodeGenFunction.Tracks n c a
        (SmallVector.push_back S (BreakContinue.ctor Ext Inc)) y ∧
      y.IR.InsertBlock = some Bdy ∧ y.IR.Blocks.length = x.IR.Blocks.length ∧
      (∀ i, i ≠ k → i ≠ Cnd → y.IR.Blocks[i]? = x.IR.Blocks[i]?) ∧
      (k ≠ Cnd → ∀ Blk, x.IR.Blocks[Cnd]? = some Blk →
        y.IR.Blocks[Cnd]? = some { Blk with Insts := Blk.Insts ++ [.condBr Cond Bdy Ext] }) := by
  obtain ⟨x1, k, B1, hk, hB1, e1, t1, l1, s1, o1, i1⟩ := h.insert (.br Cnd)
  have t1' := t1.setInsertPoint Cnd hC (by rw [l1]; exact hCl)
  obtain ⟨x2, k2, B2, hk2, hB2, e2, t2, l2, s2, o2, i2⟩ := t1'.insert (.condBr Cond Bdy Ext)
  have hk2' : k2 = Cnd := (Option.some.inj hk2).symm
  subst hk2'
  have hset : (x1.setInsertPoint k2).IR.Blocks = x1.IR.Blocks := rfl
  rw [hset] at hB2 l2 o2
  refine ⟨(x2.enterLoop Ext Inc).setInsertPoint Bdy, k, hk, ?_, ?_, rfl, ?_, ?_, ?_⟩
  · simp [emitForStmt.head, e1, e2]
  · exact (t2.enterLoop Ext Inc).setInsertPoint Bdy hB (by
      show Bdy < x2.IR.Blocks.length
      rw [l2, l1]; exact hBl)
  · show x2.IR.Blocks.length = x.IR.Blocks.length
    rw [l2, l1]
  · intro i hik hic
    show x2.IR.Blocks[i]? = x.IR.Blocks[i]?
    rw [o2 i hic, o1 i hik]
  · intro hkc Blk hBlk
    show x2.IR.Blocks[k2]? = _
    rw [o1 k2 (Ne.symm hkc), hBlk] at hB2
    rw [s2, ← Option.some.inj hB2]

theorem emitForStmt_latch_tracks {n : Nat} {c : Nat} {a x : CodeGenFunction}
    {S : BreakContinueStackTy} {T : BreakContinue}
    (h : CodeGenFunction.Tracks n c a (SmallVector.push_back S T) x) (Loop : ExprPtr)
    (Cnd Bdy Inc Ext : Nat) (hI : n ≤ Inc) (hIl : Inc < x.IR.Blocks.length)
    (hE : n ≤ Ext) (hEl : Ext < x.IR.Blocks.length) :
    ∃ (y : CodeGenFunction) (k : Nat), x.IR.InsertBlock = some k ∧
      emitForStmt.latch Loop (LoopBlocks.mk Cnd Bdy Inc Ext) x = some y ∧
      CodeGenFunction.Tracks n c a S y ∧
      y.IR.InsertBlock = some Ext ∧ y.IR.Blocks.length = x.IR.Blocks.length ∧
      (∀ i, i ≠ k → i ≠ Inc → y.IR.Blocks[i]? = x.IR.Blocks[i]?) ∧
      (k ≠ Inc → ∀ Blk, x.IR.Blocks[Inc]? = some Blk →
        y.IR.Blocks[Inc]? = some { Blk with Insts := Blk.Insts ++ [.eval Loop, .br Cnd] }) := by
  obtain ⟨x1, k, hk, e1, t1, i1, l1, o1⟩ := h.emitBranch Inc
  obtain ⟨x2, e2, t2, hIR⟩ := t1.exitLoop
  have t2' := t2.setInsertPoint Inc hI (by rw [hIR, l1]; exact hIl)
  obtain ⟨x3, k3, B3, hk3, hB3, e3, t3, l3, s3, o3, i3⟩ := t2'.insert (.eval Loop)
  have hk3' : k3 = Inc := (Option.some.inj hk3).symm
  subst hk3'
  have hset : (x2.setInsertPoint k3).IR.Blocks = x1.IR.Blocks := by
    show x2.IR.Blocks = x1.IR.Blocks
    rw [hIR]
  rw [hset] at hB3 l3 o3
  obtain ⟨x4, k4, B4, hk4, hB4, e4, t4, l4, s4, o4, i4⟩ := t3.insert (.br Cnd)
  have hk4' : k4 = k3 := by
    rw [i3] at hk4
    exact (Option.some.inj hk4).symm
  subst hk4'
  have hB4' : B4 = { B3 with Insts := B3.Insts ++ [.eval Loop] } := by
    rw [s3] at hB4
    exact (Option.some.inj hB4).symm
  refine ⟨x4.setInsertPoint Ext, k, hk, ?_, ?_, rfl, ?_, ?_, ?_⟩
  · simp [emitForStmt.latch, e1, e2, e3, e4]
  · exact t4.setInsertPoint Ext hE (by rw [l4, l3, l1]; exact hEl)
  · show x4.IR.Blocks.length = x.IR.Blocks.length
    rw [l4, l3, l1]
  · intro i hik hic
    show x4.IR.Blocks[i]? = x.IR.Blocks[i]?
    rw [o4 i hic, o3 i hic, o1 i hik]
  · intro hkc Blk hBlk
    show x4.IR.Blocks[k4]? = _
    rw [o1 k4 (Ne.symm hkc), hBlk] at hB3
    have hB3' : B3 = Blk := (Option.some.inj hB3).symm
    rw [s4, hB4', hB3']
    simp

/-! ### Statement lowering: every statement keeps the frame -/

mutual
/-- The lowering of a statement whose breaks and continues are inside loops
succeeds in every state with an insertion block, and keeps the frame, the
break/continue stack and the other members. -/
theorem emitStmt_tracks : ∀ (s : Stmt) (x : CodeGenFunction) (k : Nat),
    x.IR.InsertBlock = some k → k < x.IR.Blocks.length →
    Stmt.scoped (!x.BreakContinueStack.isEmpty) s = true →
    ∃ y, emitStmt s x = some y ∧
      CodeGenFunction.Tracks x.IR.Blocks.length k x x.BreakContinueStack y
  | .exprStmt E, x, k, hk, hlt, _ => by
    simp only [emitStmt]
    exact emitExpr_tracks (CodeGenFunction.Tracks.start x k hk hlt) E
  | .block Body, x, k, hk, hlt, hs => by
    simp only [emitStmt]
    exact emitBlock_tracks Body x k hk hlt (by simpa [Stmt.scoped] using hs)
  | .ifStmt Cond Then Else, x, k, hk, hlt, hs => by
    simp only [Stmt.scoped, Bool.and_eq_true] at hs
    have h := CodeGenFunction.Tracks.start x k hk hlt
    obtain ⟨Thn, Els, Mrg, x1, e1, t1, hEn, hEl, hMn, hMl⟩ :=
      emitIfStmt_head_tracks h Cond Else.isSome
    obtain ⟨k1, hk1, hlt1, _⟩ := t1.2.2.2.2.2.2.2
    obtain ⟨x2, e2, t2l⟩ := emitStmt_tracks Then x1 k1 hk1 hlt1 (by rw [t1.1]; exact hs.1)
    obtain ⟨t2, hlen12⟩ := t1.andThen hk1 t2l
    obtain ⟨x3, e3, t3, hl3⟩ :=
      emitIfStmt_endArm_tracks t2 (IfBlocks.mk Thn Els Mrg) Els hEn (by omega)
    obtain ⟨x4, e4, t4⟩ := emitElse_tracks Else Thn Els Mrg x3 _ _ _ _ t3 hMn (by omega)
      (by rw [t3.1]; exact hs.2)
    exact ⟨x4, by simp [emitStmt, e1, e2, e3, e4], t4⟩
  | .whileStmt Cond Body, x, k, hk, hlt, hs => by
    simp only [Stmt.scoped] at hs
    have h := CodeGenFunction.Tracks.start x k hk hlt
    obtain ⟨Cnd, Bdy, Ext, x1, e1, t1, hEn, hEl⟩ := emitWhileStmt_head_tracks h Cond
    obtain ⟨k1, hk1, hlt1, _⟩ := t1.2.2.2.2.2.2.2
    obtain ⟨x2, e2, t2l⟩ := emitStmt_tracks Body x1 k1 hk1 hlt1
      (by rw [t1.1, SmallVector.push_back_not_isEmpty]; exact hs)
    obtain ⟨t2, hlen12⟩ := t1.andThen hk1 t2l
    obtain ⟨x3, e3, t3⟩ := emitWhileStmt_latch_tracks t2 Cnd Bdy Cnd Ext hEn (by omega)
    exact ⟨x3, by simp [emitStmt, e1, e2, e3], t3⟩
  | .forStmt Init Cond Loop Body, x, k, hk, hlt, hs => by
    simp only [Stmt.scoped, Bool.and_eq_true] at hs
    have h := CodeGenFunction.Tracks.start x k hk hlt
    obtain ⟨x1, P0, P1, P2, P3, e1, t1, l1, _⟩ := emitForStmt_blocks_tracks h
    obtain ⟨k1, hk1, hlt1, _⟩ := t1.2.2.2.2.2.2.2
    obtain ⟨x2, e2, t2l⟩ := emitStmt_tracks Init x1 k1 hk1 hlt1 (by rw [t1.1]; exact hs.1)
    obtain ⟨t2, hlen12⟩ := t1.andThen hk1 t2l
    obtain ⟨x3, k3, _, e3, t3, hk3, l3, _⟩ := emitForStmt_head_tracks t2 Cond
      x.IR.Blocks.length (x.IR.Blocks.length + 1) (x.IR.Blocks.length + 2)
      (x.IR.Blocks.length + 3) (le_refl _) (by omega) (by omega) (by omega)
    obtain ⟨x4, e4, t4l⟩ := emitStmt_tracks Body x3 (x.IR.Blocks.length + 1) hk3
      (by rw [l3]; omega) (by rw [t3.1, SmallVector.push_back_not_isEmpty]; exact hs.2)
    obtain ⟨t4, hlen34⟩ := t3.andThen hk3 t4l
    obtain ⟨x5, k5, _, e5, t5, _⟩ := emitForStmt_latch_tracks t4 Loop
      x.IR.Blocks.length (x.IR.Blocks.length + 1) (x.IR.Blocks.length + 2)
      (x.IR.Blocks.length + 3) (by omega) (by omega) (by omega) (by omega)
    exact ⟨x5, by simp [emitStmt, e1, e2, e3, e4, e5], t5⟩
  | .continueStmt, x, k, hk, hlt, hs => by
    simp only [Stmt.scoped] at hs
    obtain ⟨T, hT⟩ := SmallVector.back_of_not_isEmpty _ hs
    obtain ⟨y, _, _, _, _, e, t, _⟩ :=
      emitContinueStmt_tracks (CodeGenFunction.Tracks.start x k hk hlt) T hT
    exact ⟨y, by simp [emitStmt, e], t⟩
  | .breakStmt, x, k, hk, hlt, hs => by
    simp only [Stmt.scoped] at hs
    obtain ⟨T, hT⟩ := SmallVector.back_of_not_isEmpty _ hs
    obtain ⟨y, _, _, _, _, e, t, _⟩ :=
      emitBreakStmt_tracks (CodeGenFunction.Tracks.start x k hk hlt) T hT
    exact ⟨y, by simp [emitStmt, e], t⟩
  | .returnStmt E, x, k, hk, hlt, _ => by
    simp only [emitStmt]
    exact emitReturnStmt_tracks (CodeGenFunction.Tracks.start x k hk hlt) E
/-- The lowering of a list of statements keeps the frame. -/
theorem emitBlock_tracks : ∀ (ss : List Stmt) (x : CodeGenFunction) (k : Nat),
    x.IR.InsertBlock = some k → k < x.IR.Blocks.length →
    Stmt.scopedList (!x.BreakContinueStack.isEmpty) ss = true →
    ∃ y, emitBlock ss x = some y ∧
      CodeGenFunction.Tracks x.IR.Blocks.length k x x.BreakContinueStack y
  | [], x, k, hk, hlt, _ => ⟨x, by simp [emitBlock], CodeGenFunction.Tracks.start x k hk hlt⟩
  | s :: ss, x, k, hk, hlt, hs => by
    simp only [Stmt.scopedList, Bool.and_eq_true] at hs
    have h := CodeGenFunction.Tracks.start x k hk hlt
    obtain ⟨x1, e1, t1⟩ := emitStmt_tracks s x k hk hlt hs.1
    obtain ⟨k1, hk1, hlt1, _⟩ := t1.2.2.2.2.2.2.2
    obtain ⟨x2, e2, t2l⟩ := emitBlock_tracks ss x1 k1 hk1 hlt1 (by rw [t1.1]; exact hs.2)
    obtain ⟨t2, _⟩ := t1.andThen hk1 t2l
    exact ⟨x2, by simp [emitBlock, e1, e2], t2⟩
/-- The lowering of an else clause keeps the frame of the lowering around
it. -/
theorem emitElse_tracks : ∀ (Else : Option Stmt) (Thn Els Mrg : Nat) (x : CodeGenFunction)
    (n c : Nat) (a : CodeGenFunction) (S : BreakContinueStackTy),
    CodeGenFunction.Tracks n c a S x → n ≤ Mrg → Mrg < x.IR.Blocks.length →
    Stmt.scopedElse (!x.BreakContinueStack.isEmpty) Else = true →
    ∃ y, emitElse Else (IfBlocks.mk Thn Els Mrg) x = some y ∧ CodeGenFunction.Tracks n c a S y
  | none, _, _, _, x, _, _, _, _, h, _, _, _ => ⟨x, by simp [emitElse], h⟩
  | some ElseStmt, Thn, Els, Mrg, x, n, c, a, S, h, hMn, hMl, hs => by
    simp only [Stmt.scopedElse] at hs
    obtain ⟨k, hk, hlt, _⟩ := h.2.2.2.2.2.2.2
    obtain ⟨x1, e1, t1l⟩ := emitStmt_tracks ElseStmt x k hk hlt hs
    obtain ⟨t1, hlen⟩ := h.andThen hk t1l
    obtain ⟨x2, e2, t2, _⟩ :=
      emitIfStmt_endArm_tracks t1 (IfBlocks.mk Thn Els Mrg) Mrg hMn (by omega)
    exact ⟨x2, by simp [emitElse, e1, e2], t2⟩
end

mutual
/-- Inside a loop every statement has its breaks and continues inside a
loop. -/
theorem Stmt.scoped_true : ∀ (s : Stmt), Stmt.scoped true s = true
  | .exprStmt _ => rfl
  | .block Body => by
    simp only [Stmt.scoped]
    exact Stmt.scopedList_true Body
  | .ifStmt _ Then Else => by
    simp only [Stmt.scoped, Bool.and_eq_true]
    exact ⟨Stmt.scoped_true Then, Stmt.scopedElse_true Else⟩
  | .whileStmt _ Body => by
    simp only [Stmt.scoped]
    exact Stmt.scoped_true Body
  | .forStmt Init _ _ Body => by
    simp only [Stmt.scoped, Bool.and_eq_true]
    exact ⟨Stmt.scoped_true Init, Stmt.scoped_true Body⟩
  | .continueStmt => rfl
  | .breakStmt => rfl
  | .returnStmt _ => rfl
/-- Inside a loop every list of statements has its breaks and continues
inside a loop. -/
theorem Stmt.scopedList_true : ∀ (ss : List Stmt), Stmt.scopedList true ss = true
  | [] => rfl
  | s :: ss => by
    simp only [Stmt.scopedList, Bool.and_eq_true]
    exact ⟨Stmt.scoped_true s, Stmt.scopedList_true ss⟩
/-- Inside a loop every else clause has its breaks and continues inside a
loop. -/
theorem Stmt.scopedElse_true : ∀ (Else : Option Stmt), Stmt.scopedElse true Else = true
  | none => rfl
  | some ElseStmt => by
    simp only [Stmt.scopedElse]
    exact Stmt.scoped_true ElseStmt
end

/-! ### The claims on the lowering -/

/-- C7: `require` and `assert` lower to distinct terminator kinds.  In every
state with an insertion block, `emitCallRequire` ends that block with a
conditional branch on the condition whose false branch leads to a block that
holds the revert with the message and nothing else, `emitCallAssert` ends it
with a conditional branch whose false branch leads to a block that holds the
invariant-failure terminator and nothing else, the lowering goes on in the
block of the true branch, and the kinds of the two failure terminators
differ. -/
theorem require_assert_distinct_terminators (CGF : CodeGenFunction) (IB : Nat)
    (Cond : ExprPtr) (Message : Option ExprPtr)
    (hIB : CGF.IR.InsertBlock = some IB) (hlt : IB < CGF.IR.Blocks.length) :
    (∃ (R : CodeGenFunction) (B : BasicBlock) (IfTrue IfFalse : Nat) (F : BasicBlock),
      emitCallRequire Cond Message CGF = some R ∧
      CGF.IR.Blocks[IB]? = some B ∧
      R.IR.Blocks[IB]? = some { B with Insts := B.Insts ++ [.condBr Cond IfTrue IfFalse] } ∧
      R.IR.Blocks[IfFalse]? = some F ∧ F.Insts = [.revert Message] ∧
      F.Insts.getLast?.bind Inst.terminatorKind = some .revertWithReason ∧
      R.IR.InsertBlock = some IfTrue ∧ IfTrue ≠ IfFalse ∧ IfTrue ≠ IB ∧ IfFalse ≠ IB) ∧
    (∃ (A : CodeGenFunction) (B : BasicBlock) (IfTrue IfFalse : Nat) (F : BasicBlock),
      emitCallAssert Cond CGF = some A ∧
      CGF.IR.Blocks[IB]? = some B ∧
      A.IR.Blocks[IB]? = some { B with Insts := B.Insts ++ [.condBr Cond IfTrue IfFalse] } ∧
      A.IR.Blocks[IfFalse]? = some F ∧ F.Insts = [.invalid] ∧
      F.Insts.getLast?.bind Inst.terminatorKind = some .invariantFailure ∧
      A.IR.InsertBlock = some IfTrue ∧ IfTrue ≠ IfFalse ∧ IfTrue ≠ IB ∧ IfFalse ≠ IB) ∧
    (Inst.revert Message).terminatorKind ≠ Inst.invalid.terminatorKind := by
  have h := CodeGenFunction.Tracks.start CGF IB hIB hlt
  refine ⟨?_, ?_, by simp [Inst.terminatorKind]⟩
  · obtain ⟨x1, x2, x3, x4, k, B, P1, P2, e1, e2, e3, e4, _, hk, hklt, hB, _, c1, _, c3, _⟩ :=
      h.condAbort "require.continue" "require.revert" Cond (.revert Message)
    have hkk : k = IB := by
      rw [hIB] at hk
      exact (Option.some.inj hk).symm
    subst hkk
    exact ⟨x4.setInsertPoint CGF.IR.Blocks.length, B, CGF.IR.Blocks.length,
      CGF.IR.Blocks.length + 1, _, by simp [emitCallRequire, e1, e2, e3, e4], hB, c1, c3, rfl,
      rfl, rfl, by omega, by omega, by omega⟩
  · obtain ⟨x1, x2, x3, x4, k, B, P1, P2, e1, e2, e3, e4, _, hk, hklt, hB, _, c1, _, c3, _⟩ :=
      h.condAbort "assert.continue" "assert.invalid" Cond .invalid
    have hkk : k = IB := by
      rw [hIB] at hk
      exact (Option.some.inj hk).symm
    subst hkk
    exact ⟨x4.setInsertPoint CGF.IR.Blocks.length, B, CGF.IR.Blocks.length,
      CGF.IR.Blocks.length + 1, _, by simp [emitCallAssert, e1, e2, e3, e4], hB, c1, c3, rfl,
      rfl, rfl, by omega, by omega, by omega⟩

/-- Witness of C7: `require(e7, e8)` and `assert(e7)` at the start of the
example function. -/
theorem require_assert_distinct_terminators_witness :
    (∃ (R : CodeGenFunction) (IfFalse : Nat) (F : BasicBlock),
      emitCallRequire 7 (some 8) exampleFunction = some R ∧
      R.IR.Blocks[IfFalse]? = some F ∧ F.Insts = [.revert (some 8)]) ∧
    (∃ (A : CodeGenFunction) (IfFalse : Nat) (F : BasicBlock),
      emitCallAssert 7 exampleFunction = some A ∧
      A.IR.Blocks[IfFalse]? = some F ∧ F.Insts = [.invalid]) := by
  obtain ⟨⟨R, _, _, IfFalse, F, r1, _, _, r4, r5, _⟩,
      ⟨A, _, _, IfFalse', F', a1, _, _, a4, a5, _⟩, _⟩ :=
    require_assert_distinct_terminators exampleFunction 0 7 (some 8) rfl (by decide)
  exact ⟨⟨R, IfFalse, F, r1, r4, r5⟩, ⟨A, IfFalse', F', a1, a4, a5⟩⟩

/-- C8: the lowering of every `for` loop whose initializer has its breaks and
continues inside loops succeeds in every state with an insertion block, and
the loop gets four new blocks that differ from each other; while the
body is lowered the top of the break/continue stack holds the increment
block as continue target, which is not the condition block, and the exit
block as break target; a `continue` lowered with that stack branches to the
increment block and a `break` to the exit block; and in the graph after the
loop the increment block holds the post-expression followed by the branch to
the condition block, the condition block branches to the body block or the
exit block, and the lowering goes on in the exit block, which is empty, with
the stack as it was before the loop. -/
theorem forStmt_continue_target (Init Body : Stmt) (Cond Loop : ExprPtr)
    (CGF : CodeGenFunction) (IB : Nat)
    (hIB : CGF.IR.InsertBlock = some IB) (hlt : IB < CGF.IR.Blocks.length)
    (hInit : Stmt.scoped (!CGF.BreakContinueStack.isEmpty) Init = true) :
    ∃ (Cnd Bdy Inc Ext : Nat) (C1 C2 CB CB' CGF' : CodeGenFunction),
      emitForStmt.blocks CGF = some (LoopBlocks.mk Cnd Bdy Inc Ext, C1) ∧
      emitStmt Init C1 = some C2 ∧
      emitForStmt.head Cond (LoopBlocks.mk Cnd Bdy Inc Ext) C2 = some CB ∧
      emitStmt Body CB = some CB' ∧
      emitForStmt.latch Loop (LoopBlocks.mk Cnd Bdy Inc Ext) CB' = some CGF' ∧
      emitStmt (.forStmt Init Cond Loop Body) CGF = some CGF' ∧
      CGF.IR.Blocks.length ≤ Cnd ∧ Cnd < Bdy ∧ Bdy < Inc ∧ Inc < Ext ∧ Inc ≠ Cnd ∧
      SmallVector.back CB.BreakContinueStack =
        some { BreakBlock := Ext, ContinueBlock := Inc } ∧
      CB.currentContinueTarget = some Inc ∧ CB.currentBreakTarget = some Ext ∧
      CB.IR.InsertBlock = some Bdy ∧
      (∀ (X : CodeGenFunction) (k : Nat) (B : BasicBlock),
        X.BreakContinueStack = CB.BreakContinueStack → X.IR.InsertBlock = some k →
        X.IR.Blocks[k]? = some B →
        (∃ Y, emitStmt .continueStmt X = some Y ∧
          Y.IR.Blocks[k]? = some { B with Insts := B.Insts ++ [.br Inc] }) ∧
        (∃ Y, emitStmt .breakStmt X = some Y ∧
          Y.IR.Blocks[k]? = some { B with Insts := B.Insts ++ [.br Ext] })) ∧
      (∃ N P, CGF'.IR.Blocks[Inc]? =
        some { Name := N, Parent := P, Insts := [.eval Loop, .br Cnd] }) ∧
      (∃ N P, CGF'.IR.Blocks[Cnd]? =
        some { Name := N, Parent := P, Insts := [.condBr Cond Bdy Ext] }) ∧
      (∃ N P, CGF'.IR.Blocks[Ext]? = some { Name := N, Parent := P, Insts := [] }) ∧
      CGF'.IR.InsertBlock = some Ext ∧
      CGF'.BreakContinueStack = CGF.BreakContinueStack := by
  have h0 := CodeGenFunction.Tracks.start CGF IB hIB hlt
  obtain ⟨x1, P0, P1, P2, P3, e1, t1, l1, i1, c0, c1, c2, c3, o1⟩ :=
    emitForStmt_blocks_tracks h0
  have hk1 : x1.IR.InsertBlock = some IB := i1.trans hIB
  obtain ⟨x2, e2, t2l⟩ := emitStmt_tracks Init x1 IB hk1 (by rw [l1]; omega)
    (by rw [t1.1]; exact hInit)
  obtain ⟨t2, hlen12⟩ := t1.andThen hk1 t2l
  obtain ⟨_, _, _, _, _, _, f2, k2, hk2, hlt2, hor2⟩ := t2l
  obtain ⟨x3, k3, hk3, e3, t3, hi3, l3, o3, s3⟩ := emitForStmt_head_tracks t2 Cond
    CGF.IR.Blocks.length (CGF.IR.Blocks.length + 1) (CGF.IR.Blocks.length + 2)
    (CGF.IR.Blocks.length + 3) (le_refl _) (by omega) (by omega) (by omega)
  have hk32 : k3 = k2 := by
    rw [hk2] at hk3
    exact (Option.some.inj hk3).symm
  subst hk32
  have hk3ne : ∀ j, j < 4 → k3 ≠ CGF.IR.Blocks.length + j := by
    intro j hj
    rcases hor2 with hor2 | hor2 <;> omega
  obtain ⟨x4, e4, t4l⟩ := emitStmt_tracks Body x3 (CGF.IR.Blocks.length + 1) hi3
    (by rw [l3]; omega)
    (by rw [t3.1, SmallVector.push_back_not_isEmpty]; exact Stmt.scoped_true Body)
  obtain ⟨t4, hlen34⟩ := t3.andThen hi3 t4l
  obtain ⟨_, _, _, _, _, _, f4, k4, hk4, hlt4, hor4⟩ := t4l
  obtain ⟨x5, k5, hk5, e5, t5, hi5, l5, o5, s5⟩ := emitForStmt_latch_tracks t4 Loop
    CGF.IR.Blocks.length (CGF.IR.Blocks.length + 1) (CGF.IR.Blocks.length + 2)
    (CGF.IR.Blocks.length + 3) (by omega) (by omega) (by omega) (by omega)
  have hk54 : k5 = k4 := by
    rw [hk4] at hk5
    exact (Option.some.inj hk5).symm
  subst hk54
  have hk5ne : ∀ j, j < 4 → j ≠ 1 → k5 ≠ CGF.IR.Blocks.length + j := by
    intro j hj hj1
    rcases hor4 with hor4 | hor4 <;> omega
  have hback : SmallVector.back x3.BreakContinueStack =
      some (BreakContinue.mk (CGF.IR.Blocks.length + 3) (CGF.IR.Blocks.length + 2)) := by
    rw [t3.1]
    exact SmallVector.back_push_back _ _
  have b3c : x3.IR.Blocks[CGF.IR.Blocks.length]? = some (BasicBlock.mk "for.cond" P0
      [.condBr Cond (CGF.IR.Blocks.length + 1) (CGF.IR.Blocks.length + 3)]) := by
    have := s3 (hk3ne 0 (by omega)) _ (by
      rw [f2 _ (by omega) (by omega)]
      exact c0)
    simpa using this
  have b3i : x3.IR.Blocks[CGF.IR.Blocks.length + 2]? =
      some { Name := "for.inc", Parent := P2, Insts := [] } := by
    rw [o3 _ (Ne.symm (hk3ne 2 (by omega))) (by omega), f2 _ (by omega) (by omega)]
    exact c2
  have b3e : x3.IR.Blocks[CGF.IR.Blocks.length + 3]? =
      some { Name := "for.end", Parent := P3, Insts := [] } := by
    rw [o3 _ (Ne.symm (hk3ne 3 (by omega))) (by omega), f2 _ (by omega) (by omega)]
    exact c3
  refine ⟨CGF.IR.Blocks.length, CGF.IR.Blocks.length + 1, CGF.IR.Blocks.length + 2,
    CGF.IR.Blocks.length + 3, x1, x2, x3, x4, x5, e1, e2, e3, e4, e5,
    by simp [emitStmt, e1, e2, e3, e4, e5], le_refl _, by omega, by omega, by omega, by omega,
    hback, by simp [CodeGenFunction.currentContinueTarget, hback],
    by simp [CodeGenFunction.currentBreakTarget, hback], hi3, ?_, ?_, ?_, ?_, hi5, t5.1⟩
  · intro X k B hX hXk hXB
    have hklt : k < X.IR.Blocks.length := by
      by_contra hge
      rw [List.getElem?_eq_none (by omega)] at hXB
      exact Option.noConfusion hXB
    have hX0 := CodeGenFunction.Tracks.start X k hXk hklt
    rw [← hX] at hback
    constructor
    · obtain ⟨Y, k', B', hk', hB', e, _, hY⟩ := emitContinueStmt_tracks hX0 _ hback
      have hkk : k' = k := by
        rw [hXk] at hk'
        exact (Option.some.inj hk').symm
      subst hkk
      have hBB : B' = B := by
        rw [hXB] at hB'
        exact (Option.some.inj hB').symm
      subst hBB
      exact ⟨Y, by simp [emitStmt, e], hY⟩
    · obtain ⟨Y, k', B', hk', hB', e, _, hY⟩ := emitBreakStmt_tracks hX0 _ hback
      have hkk : k' = k := by
        rw [hXk] at hk'
        exact (Option.some.inj hk').symm
      subst hkk
      have hBB : B' = B := by
        rw [hXB] at hB'
        exact (Option.some.inj hB').symm
      subst hBB
      exact ⟨Y, by simp [emitStmt, e], hY⟩
  · refine ⟨"for.inc", P2, ?_⟩
    have := s5 (hk5ne 2 (by omega) (by omega)) _ (by
      rw [f4 _ (by omega) (by omega)]
      exact b3i)
    simpa using this
  · refine ⟨"for.cond", P0, ?_⟩
    have hne : CGF.IR.Blocks.length ≠ k5 := by
      have := hk5ne 0 (by omega) (by omega)
      omega
    rw [o5 CGF.IR.Blocks.length hne (by omega), f4 _ (by omega) (by omega)]
    exact b3c
  · refine ⟨"for.end", P3, ?_⟩
    rw [o5 _ (Ne.symm (hk5ne 3 (by omega) (by omega))) (by omega), f4 _ (by omega) (by omega)]
    exact b3e

/-- Witness of C8: the example loop at the start of the example function. -/
theorem forStmt_continue_target_witness :
    ∃ (Cnd Inc Ext : Nat) (CGF' : CodeGenFunction),
      emitStmt exampleFor exampleFunction = some CGF' ∧ Inc ≠ Cnd ∧
      (∃ N P, CGF'.IR.Blocks[Inc]? =
        some { Name := N, Parent := P, Insts := [.eval 102, .br Cnd] }) ∧
      CGF'.IR.InsertBlock = some Ext := by
  obtain ⟨Cnd, _, Inc, Ext, _, _, _, _, CGF', _, _, _, _, _, h6, _, _, _, _, h11, _, _, _, _, _,
      h17, _, _, h20, _⟩ :=
    forStmt_continue_target (.exprStmt (.other 100))
      (.block [.ifStmt 103 .continueStmt none, .exprStmt (.other 104)]) 101 102
      exampleFunction 0 rfl (by decide) rfl
  exact ⟨Cnd, Inc, Ext, CGF', h6, h11, h17, h20⟩

end soll.CodeGen

namespace soll

/-! ### The compiler invocation and the driver -/

/-- C9: when the option parser returns, `ParseCommandLineOptions` sets
`TargetOpts.BackendTarget` to the selected target in every case, sets
`TargetOpts.DeployPlatform` to the selected deploy platform when the target is
EWASM and leaves it as it was before the call when the target is not EWASM
(so for EVM), and copies `ProgramAction`, `Language`, `OptimizationLevel` and
`Runtime` from their options in every case. -/
theorem ParseCommandLineOptions_target_options (clParser : List String → ClOutcome)
    (StandardErrHasColors : Bool) (Arg : List String) (Inv : CompilerInvocation)
    (result : Bool) (opts : Options) (hcl : clParser Arg = .returned result opts) :
    ∃ Inv', CompilerInvocation.ParseCommandLineOptions clParser StandardErrHasColors Arg Inv
        = .ok (true, Inv') ∧
      Inv'.TargetOpts.BackendTarget = opts.Target ∧
      (opts.Target = .EWASM → Inv'.TargetOpts.DeployPlatform = opts.DeployPlatform) ∧
      (opts.Target = .EVM → Inv'.TargetOpts.DeployPlatform = Inv.TargetOpts.DeployPlatform) ∧
      Inv'.TargetOpts.DeployPlatform =
        (if opts.Target = .EWASM then opts.DeployPlatform else Inv.TargetOpts.DeployPlatform) ∧
      Inv'.FrontendOpts.ProgramAction = opts.Action ∧
      Inv'.FrontendOpts.Language = opts.Language ∧
      Inv'.CodeGenOpts.OptimizationLevel = opts.OptimizationLevel ∧
      Inv'.CodeGenOpts.Runtime = opts.Runtime := by
  simp only [CompilerInvocation.ParseCommandLineOptions, hcl]
  refine ⟨_, rfl, rfl, ?_, ?_, ?_, rfl, rfl, rfl, rfl⟩
  · intro h; simp [h]
  · intro h; simp [h]
  · by_cases h : opts.Target = .EWASM <;> simp [h]

/-- Witness of C9: the target EVM with `-deploy Normal`, on an invocation
whose deploy platform is `Chain`. -/
theorem ParseCommandLineOptions_target_options_witness :
    ∃ Inv', CompilerInvocation.ParseCommandLineOptions
        (fun _ => .returned true { Options.init with Target := .EVM, DeployPlatform := .Normal })
        false ["soll", "-target", "EVM", "-deploy", "Normal"]
        { DiagnosticOpts := { ShowColors := false }, DiagRenderer := none,
          FrontendOpts := { ShowHelp := false, ShowVersion := false, Inputs := [],
                            Language := .Sol, OutputFile := "", ProgramAction := .EmitLLVM },
          TargetOpts := { BackendTarget := .EWASM, DeployPlatform := .Chain },
          CodeGenOpts := { OptimizationLevel := .O0, Runtime := false } }
        = .ok (true, Inv') ∧
      Inv'.TargetOpts.BackendTarget = .EVM ∧
      Inv'.TargetOpts.DeployPlatform = .Chain := by
  obtain ⟨Inv', h1, h2, _, h4, _⟩ := ParseCommandLineOptions_target_options
    (fun _ => .returned true { Options.init with Target := .EVM, DeployPlatform := .Normal })
    false ["soll", "-target", "EVM", "-deploy", "Normal"]
    { DiagnosticOpts := { ShowColors := false }, DiagRenderer := none,
      FrontendOpts := { ShowHelp := false, ShowVersion := false, Inputs := [],
                        Language := .Sol, OutputFile := "", ProgramAction := .EmitLLVM },
      TargetOpts := { BackendTarget := .EWASM, DeployPlatform := .Chain },
      CodeGenOpts := { OptimizationLevel := .O0, Runtime := false } }
    true { Options.init with Target := .EVM, DeployPlatform := .Normal } rfl
  exact ⟨Inv', h1, h2, h4 rfl⟩

/-- C10: whenever `ParseCommandLineOptions` returns, it returns `true`, and it
returns whenever the option parser does, whatever the parser's result; so
`main` never ends at the `return` guarded by the result of
`ParseCommandLineOptions`, and when `main` returns, its value is
`EXIT_SUCCESS` exactly when `FixupStandardFileDescriptors` reports no error
and `ExecuteCompilerInvocation` returns true on the parsed invocation, and
`EXIT_FAILURE` otherwise.  And `main` does return: on a fixup error at its
first `return`, with `EXIT_FAILURE`; without a fixup error and with an option
parser that returns (whatever its result), at its last `return` with
`EXIT_SUCCESS` when `ExecuteCompilerInvocation` returns true and at the
`return` before it with `EXIT_FAILURE` when it returns false; the process
ends elsewhere only when the option parser ends it.  The two exit statuses
differ. -/
theorem ParseCommandLineOptions_returns_true (env : Environment) (argv : List String) :
    (∀ (colors : Bool) (Inv : CompilerInvocation) (r : Bool) (Inv' : CompilerInvocation),
      CompilerInvocation.ParseCommandLineOptions env.clParser colors argv Inv = .ok (r, Inv') →
      r = true) ∧
    (∀ (colors : Bool) (Inv : CompilerInvocation) (result : Bool) (opts : Options),
      env.clParser argv = .returned result opts →
      ∃ Inv', CompilerInvocation.ParseCommandLineOptions env.clParser colors argv Inv
        = .ok (true, Inv')) ∧
    main env argv ≠ .returns .parseFailed ∧
    (∀ stmt, main env argv = .returns stmt →
      (stmt.status = EXIT_SUCCESS ↔
        (env.FixupStandardFileDescriptors = false ∧
          ∃ Inv', CompilerInvocation.ParseCommandLineOptions env.clParser
              env.StandardErrHasColors argv env.Invocation = .ok (true, Inv') ∧
            env.ExecuteCompilerInvocation Inv' = true)) ∧
      (stmt.status ≠ EXIT_SUCCESS → stmt.status = EXIT_FAILURE)) ∧
    (env.FixupStandardFileDescriptors = true →
      main env argv = .returns .fixupFailed ∧
      MainReturn.fixupFailed.status = EXIT_FAILURE) ∧
    (env.FixupStandardFileDescriptors = false →
      ∀ (result : Bool) (opts : Options), env.clParser argv = .returned result opts →
      ∃ Inv', CompilerInvocation.ParseCommandLineOptions env.clParser
          env.StandardErrHasColors argv env.Invocation = .ok (true, Inv') ∧
        (env.ExecuteCompilerInvocation Inv' = true →
          main env argv = .returns .done ∧ MainReturn.done.status = EXIT_SUCCESS) ∧
        (env.ExecuteCompilerInvocation Inv' = false →
          main env argv = .returns .executeFailed ∧
          MainReturn.executeFailed.status = EXIT_FAILURE)) ∧
    (env.FixupStandardFileDescriptors = false →
      ∀ (status : Int), env.clParser argv = .exited status →
      main env argv = .exits status) ∧
    EXIT_SUCCESS ≠ EXIT_FAILURE := by
  have hret : ∀ (colors : Bool) (Inv : CompilerInvocation) (r : Bool) (Inv' : CompilerInvocation),
      CompilerInvocation.ParseCommandLineOptions env.clParser colors argv Inv = .ok (r, Inv') →
      r = true := by
    intro colors Inv r Inv' h
    unfold CompilerInvocation.ParseCommandLineOptions at h
    cases hcl : env.clParser argv with
    | exited status => simp [hcl] at h
    | returned result opts =>
      simp only [hcl, Except.ok.injEq, Prod.mk.injEq] at h
      exact h.1.symm
  have hparse : ∀ (colors : Bool) (Inv : CompilerInvocation) (result : Bool) (opts : Options),
      env.clParser argv = .returned result opts →
      ∃ Inv', CompilerInvocation.ParseCommandLineOptions env.clParser colors argv Inv
        = .ok (true, Inv') := by
    intro colors Inv result opts hcl
    simp only [CompilerInvocation.ParseCommandLineOptions, hcl]
    exact ⟨_, rfl⟩
  refine ⟨hret, hparse, ?_, ?_, ?_, ?_, ?_, by decide⟩
  · unfold main
    cases hf : env.FixupStandardFileDescriptors with
    | true => simp
    | false =>
      cases hp : CompilerInvocation.ParseCommandLineOptions env.clParser
          env.StandardErrHasColors argv env.Invocation with
      | error status => simp
      | ok res =>
        rcases res with ⟨r, Inv'⟩
        have hr := hret _ _ _ _ hp
        subst hr
        cases he : env.ExecuteCompilerInvocation Inv' <;> simp [he]
  · intro stmt hmain
    unfold main at hmain
    cases hf : env.FixupStandardFileDescriptors with
    | true =>
      simp only [hf, if_true, MainResult.returns.injEq] at hmain
      subst hmain
      simp [MainReturn.status, EXIT_SUCCESS, EXIT_FAILURE]
    | false =>
      cases hp : CompilerInvocation.ParseCommandLineOptions env.clParser
          env.StandardErrHasColors argv env.Invocation with
      | error status => simp [hf, hp] at hmain
      | ok res =>
        rcases res with ⟨r, Inv'⟩
        have hr := hret _ _ _ _ hp
        subst hr
        cases he : env.ExecuteCompilerInvocation Inv' with
        | false =>
          simp [hf, hp, he] at hmain
          subst hmain
          simp [MainReturn.status, EXIT_SUCCESS, EXIT_FAILURE, he]
        | true =>
          simp [hf, hp, he] at hmain
          subst hmain
          simp [MainReturn.status, EXIT_SUCCESS, he]
  · intro hf
    exact ⟨by simp [main, hf], rfl⟩
  · intro hf result opts hcl
    obtain ⟨Inv', hp⟩ := hparse env.StandardErrHasColors env.Invocation result opts hcl
    refine ⟨Inv', hp, ?_, ?_⟩
    · intro he
      exact ⟨by simp [main, hf, hp, he], rfl⟩
    · intro he
      exact ⟨by simp [main, hf, hp, he], rfl⟩
  · intro hf status hcl
    have hp : CompilerInvocation.ParseCommandLineOptions env.clParser
        env.StandardErrHasColors argv env.Invocation = .error status := by
      simp only [CompilerInvocation.ParseCommandLineOptions, hcl]
    simp [main, hf, hp]

/-- Witness of C10: in the example environment the option parser reports a
failure by its result and the compilation succeeds; `main` returns at its
last statement, with `EXIT_SUCCESS`, and not at the `return` guarded by the
result of `ParseCommandLineOptions`. -/
theorem ParseCommandLineOptions_returns_true_witness :
    main exampleEnvironment ["soll", "-bad"] = .returns .done ∧
    MainReturn.done.status = EXIT_SUCCESS ∧
    main exampleEnvironment ["soll", "-bad"] ≠ .returns .parseFailed := by
  have h := ParseCommandLineOptions_returns_true exampleEnvironment ["soll", "-bad"]
  obtain ⟨Inv', _, h1, _⟩ := h.2.2.2.2.2.1 rfl false Options.init rfl
  exact ⟨(h1 rfl).1, (h1 rfl).2, h.2.2.1⟩

end soll
